import Mathlib

/-!
Verification of the day-15 combat simulator (`src/d15/src/main.rs`).

The Rust program is shallowly embedded: `Tile`, `Unit` and `Board` mirror the
Rust data types, the `BTreeMap<usize, Unit>` registry is modelled as an
association list sorted by key (iteration order of a `BTreeMap` is ascending
key order), and the `usize` sentinel `usize::MAX` is the literal `2 ^ 64 - 1`.
Index arithmetic `pos - width`/`pos - 1` is `Nat` subtraction; the safety
theorem for `bfs_step` shows that under the wall-border precondition every
such subtraction stays positive and every index stays inside the tile array,
so truncation never differs from the Rust value.  Sites where the Rust code
would panic (`unwrap` on an empty minimum, indexing `positions[0]`) are
modelled with `Option` and proved unreachable under the stated preconditions.
-/

namespace D15

inductive Tile where
  | Wall
  | Open
  | Unit
deriving DecidableEq, Repr

inductive UnitKind where
  | Goblin
  | Elf
deriving DecidableEq, Repr

/-- Rust `derive(Ord)` orders `UnitKind` by declaration: `Goblin < Elf`. -/
def UnitKind.idx : UnitKind → Nat
  | .Goblin => 0
  | .Elf => 1

structure Unit where
  hp : Nat
  attack : Nat
  kind : UnitKind
  id : Nat
deriving DecidableEq, Repr

/-- The comparison key of the Rust derived `Ord` on `Unit` (field order:
`hp`, `attack`, `kind`, `id`), extended by the position component of the
`(&Unit, usize)` tuples that `next_round` takes the minimum of. -/
def ukey (u : Unit) (p : Nat) : Nat × Nat × Nat × Nat × Nat :=
  (u.hp, u.attack, u.kind.idx, u.id, p)

/-- Strict lexicographic comparison of the five-component keys. -/
def keyLt : Nat × Nat × Nat × Nat × Nat → Nat × Nat × Nat × Nat × Nat → Bool
  | (a1, a2, a3, a4, a5), (b1, b2, b3, b4, b5) =>
    if a1 ≠ b1 then a1 < b1
    else if a2 ≠ b2 then a2 < b2
    else if a3 ≠ b3 then a3 < b3
    else if a4 ≠ b4 then a4 < b4
    else a5 < b5

/-- `Iterator::min` over `(&Unit, usize)` pairs: the first element that is
minimal in the lexicographic order. -/
def minEntry : List (Unit × Nat) → Option (Unit × Nat)
  | [] => none
  | x :: xs =>
    some (xs.foldl (fun best y => if keyLt (ukey y.1 y.2) (ukey best.1 best.2) then y else best) x)

/-- Sorted association list standing in for `BTreeMap<usize, Unit>`. -/
def alGet (k : Nat) : List (Nat × Unit) → Option Unit
  | [] => none
  | (k', v) :: t => if k = k' then some v else alGet k t

def alInsert (k : Nat) (v : Unit) : List (Nat × Unit) → List (Nat × Unit)
  | [] => [(k, v)]
  | (k', v') :: t =>
    if k < k' then (k, v) :: (k', v') :: t
    else if k = k' then (k, v) :: t
    else (k', v') :: alInsert k v t

def alErase (k : Nat) : List (Nat × Unit) → List (Nat × Unit)
  | [] => []
  | (k', v) :: t => if k = k' then t else (k', v) :: alErase k t

/-- `get_mut(&k).unwrap()` followed by a field update; absent keys are left
untouched (the Rust code would panic, which is proved unreachable where it
matters). -/
def alModify (k : Nat) (f : Unit → Unit) : List (Nat × Unit) → List (Nat × Unit)
  | [] => []
  | (k', v) :: t => if k = k' then (k', f v) :: t else (k', v) :: alModify k f t

def defaultUnit : Unit := ⟨0, 0, UnitKind.Goblin, 0⟩

def alGetD (k : Nat) (l : List (Nat × Unit)) : Unit := (alGet k l).getD defaultUnit

structure Board where
  tiles : List Tile
  units : List (Nat × Unit)
  width : Nat
  elf_attack : Nat
  elf_casualty : Bool
deriving Repr

/-- `usize::MAX`, the BFS sentinel distance. -/
def MAXD : Nat := 2 ^ 64 - 1

namespace Board

/-- Tile lookup; out-of-range reads default to `Wall` (the Rust code would
panic there; the safety theorem shows all reads are in range under the
wall-border precondition). -/
def tileAt (b : Board) (p : Nat) : Tile := b.tiles.getD p Tile.Wall

/-- `neighbors`: `vec![pos - width, pos - 1, pos + 1, pos + width]`. -/
def neighborsList (b : Board) (p : Nat) : List Nat :=
  [p - b.width, p - 1, p + 1, p + b.width]

def openNeighbors (b : Board) (p : Nat) : List Nat :=
  (b.neighborsList p).filter (fun q => b.tileAt q == Tile.Open)

def enemyNeighbors (b : Board) (p : Nat) (k : UnitKind) : List Nat :=
  (b.neighborsList p).filter (fun q =>
    match alGet q b.units with
    | some u => u.kind ≠ k
    | none => false)

end Board

/-- Insertion into a sorted list (ascending). -/
def insSorted (x : Nat) : List Nat → List Nat
  | [] => [x]
  | y :: t => if x ≤ y then x :: y :: t else y :: insSorted x t

/-- `Vec::sort`. -/
def listSort : List Nat → List Nat
  | [] => []
  | x :: t => insSorted x (listSort t)

/-- `Vec::dedup`: removes consecutive duplicates. -/
def dedupConsec : List Nat → List Nat
  | [] => []
  | [x] => [x]
  | x :: y :: t => if x = y then dedupConsec (y :: t) else x :: dedupConsec (y :: t)

namespace Board

/-- One pass of the `while let Some((distance, pos)) = horizon.pop_front()`
loop of `bfs_step`, with explicit fuel.  Returns the distance array and
`max_distance` when the loop exits (by `break` or empty queue). -/
def bfsLoop (b : Board) (dst : List Nat) :
    Nat → List (Nat × Nat) → List Nat → Nat → List Nat × Nat
  | 0, _, dist, maxd => (dist, maxd)
  | fuel + 1, queue, dist, maxd =>
    match queue with
    | [] => (dist, maxd)
    | (d, pos) :: rest =>
      if maxd < d then (dist, maxd)
      else if dist.getD pos MAXD ≤ d then bfsLoop b dst fuel rest dist maxd
      else
        bfsLoop b dst fuel (rest ++ (b.openNeighbors pos).map (fun n => (d + 1, n)))
          (dist.set pos d) (if dst.contains pos then d else maxd)

/-- Fuel that provably outlasts the BFS loop (each iteration strictly
decreases `5 * #unfinalized + queue length`). -/
def bfsFuel (b : Board) : Nat := 5 * b.tiles.length + 1

/-- The backward walk of `bfs_step`: `while distance > 1 { ... }`. -/
def backWalk (b : Board) (dist : List Nat) : Nat → List Nat → List Nat
  | 0, ps => ps
  | 1, ps => ps
  | d + 2, ps =>
    backWalk b dist (d + 1)
      (dedupConsec (listSort
        (((ps.map b.openNeighbors).flatten).filter (fun p => dist.getD p MAXD == d + 1))))

/-- The distance array and `max_distance` produced by the BFS loop of
`bfs_step`. -/
def bfsDist (b : Board) (src : Nat) (dst : List Nat) : List Nat × Nat :=
  bfsLoop b dst (bfsFuel b) [(0, src)] (List.replicate b.tiles.length MAXD) MAXD

/-- The `dst.into_iter().filter(|&d| distances[d] == max_distance)` list whose
minimum `bfs_step` unwraps. -/
def bfsCandidates (b : Board) (src : Nat) (dst : List Nat) : List Nat :=
  dst.filter (fun d => (b.bfsDist src dst).1.getD d MAXD == (b.bfsDist src dst).2)

/-- `bfs_step`.  The two Rust panic sites (`min().unwrap()` on an empty
filter, `positions[0]` on an empty vector) are modelled as `none`; the
safety theorem proves they are never reached when `dst` is non-empty and the
board is wall-bordered. -/
def bfsStep (b : Board) (src : Nat) (dst : List Nat) : Option Nat :=
  match (b.bfsCandidates src dst).min? with
  | none => none
  | some position =>
    if (b.bfsDist src dst).2 == MAXD then none
    else (backWalk b (b.bfsDist src dst).1 (b.bfsDist src dst).2 [position]).head?

def attackFor (b : Board) (u : Unit) : Nat :=
  match u.kind with
  | .Goblin => 3
  | .Elf => b.elf_attack

/-- The living enemies of faction `k`: the `targets` list before it is
turned into candidate tiles. -/
def enemyList (b : Board) (k : UnitKind) : List (Nat × Unit) :=
  b.units.filter (fun pu => pu.2.kind ≠ k)

/-- Candidate destination tiles: open tiles adjacent to some enemy,
sorted and deduplicated. -/
def dstTiles (b : Board) (k : UnitKind) : List Nat :=
  dedupConsec (listSort
    ((((b.enemyList k).map (fun pu => b.neighborsList pu.1)).flatten).filter
      (fun p => b.tileAt p == Tile.Open)))

/-- `enemy_neighbors(pos, kind).map(|pos| (&self.units[&pos], pos)).min()`. -/
def chooseEnemy (b : Board) (p : Nat) (k : UnitKind) : Option (Unit × Nat) :=
  minEntry ((b.enemyNeighbors p k).map (fun q => (alGetD q b.units, q)))

/-- `self.tiles.swap(pos, next_pos)`. -/
def swapTiles (b : Board) (i j : Nat) : List Tile :=
  (b.tiles.set i (b.tiles.getD j Tile.Wall)).set j (b.tiles.getD i Tile.Wall)

/-- Move the unit at `p` to `q`: swap the tiles and re-key the registry
entry, exactly as the Rust move block does. -/
def moveUnit (b : Board) (p q : Nat) : Board :=
  { b with
    tiles := b.swapTiles p q
    units :=
      match alGet p b.units with
      | some u => alInsert q u (alErase p b.units)
      | none => b.units }

/-- The attack half of a turn, starting from the (possibly new) position. -/
def attackPhase (b : Board) (pos : Nat) : Board :=
  match b.chooseEnemy pos (alGetD pos b.units).kind with
  | none => b
  | some (enemy, epos) =>
    if enemy.hp ≤ b.attackFor (alGetD pos b.units) then
      { b with
        elf_casualty := b.elf_casualty || (enemy.kind == UnitKind.Elf)
        tiles := b.tiles.set epos Tile.Open
        units := alErase epos b.units }
    else
      { b with
        units := alModify epos
          (fun e => { e with hp := e.hp - b.attackFor (alGetD pos b.units) }) b.units }

/-- One unit's turn inside `next_round`, given its snapshot entry
`(pos0, idv)`.  `none` models `return false` (round aborted because the
unit found no living enemies). -/
def processTurn (b : Board) (pos0 idv : Nat) : Option Board :=
  match alGet pos0 b.units with
  | none => some b
  | some u0 =>
    if u0.id ≠ idv then some b
    else if (b.enemyList u0.kind).isEmpty then none
    else if (b.enemyNeighbors pos0 u0.kind).isEmpty then
      if (b.dstTiles u0.kind).isEmpty then some b
      else
        match b.bfsStep pos0 (b.dstTiles u0.kind) with
        | none => some (b.attackPhase pos0)
        | some next => some ((b.moveUnit pos0 next).attackPhase next)
    else some (b.attackPhase pos0)

/-- The `for (mut pos, id) in units` loop of `next_round`. -/
def turnsLoop : List (Nat × Nat) → Board → Board × Bool
  | [], b => (b, true)
  | (p, i) :: rest, b =>
    match b.processTurn p i with
    | none => (b, false)
    | some b' => turnsLoop rest b'

/-- The acting-order snapshot taken at the top of `next_round`. -/
def snapshot (b : Board) : List (Nat × Nat) := b.units.map (fun pu => (pu.1, pu.2.id))

def nextRound (b : Board) : Board × Bool := turnsLoop b.snapshot b

def remainingHp (b : Board) : Nat := (b.units.map (fun pu => pu.2.hp)).sum

end Board

/-- The part-1 loop of `main`: `while board.next_round() { i += 1 }`, with
fuel.  The third component is `true` when the battle genuinely ended
(` next_round` returned `false`) rather than the fuel running out. -/
def runRounds : Nat → Board → Nat → Nat × Board × Bool
  | 0, b, i => (i, b, false)
  | fuel + 1, b, i =>
    match b.nextRound with
    | (b', true) => runRounds fuel b' (i + 1)
    | (b', false) => (i, b', true)

/-- `i * board.remaining_hp()` after the part-1 loop. -/
def part1Score (b : Board) (fuel : Nat) : Nat :=
  (runRounds fuel b 0).1 * (runRounds fuel b 0).2.1.remainingHp

inductive BoostRun where
  | ended (rounds : Nat) (final : Board)
  | casualty
  | fuelOut
deriving Repr

/-- The inner loop of the part-2 sweep:
`while board.next_round() { if board.elf_casualty { continue 'outer; } i += 1; }`.
Note the `elf_casualty` check happens only after rounds that return `true`. -/
def runBoost : Nat → Board → Nat → BoostRun
  | 0, _, _ => .fuelOut
  | fuel + 1, b, i =>
    match b.nextRound with
    | (b', false) => .ended i b'
    | (b', true) => if b'.elf_casualty then .casualty else runBoost fuel b' (i + 1)

/-- The part-2 sweep `for attack in 4..`, starting from a given attack
value; returns `(attack, rounds, score)` of the first accepted attack. -/
def searchBoost (orig : Board) : Nat → Nat → Nat → Option (Nat × Nat × Nat)
  | 0, _, _ => none
  | tries + 1, fuel, attack =>
    match runBoost fuel { orig with elf_attack := attack } 0 with
    | .ended i bf => some (attack, i, i * bf.remainingHp)
    | .casualty => searchBoost orig tries fuel (attack + 1)
    | .fuelOut => none

/-- `main`'s part-2 output: the sweep starting at attack power 4. -/
def part2Result (orig : Board) (tries fuel : Nat) : Option (Nat × Nat × Nat) :=
  searchBoost orig tries fuel 4

/-- `Board::from_bytes`, processing the raw byte stream. -/
def fromBytesLoop : List Nat → List Tile → List (Nat × Unit) → Nat → Except String Board
  | [], tiles, units, width => .ok ⟨tiles, units, width, 3, false⟩
  | byte :: rest, tiles, units, width =>
    if byte = 10 then
      if width = 0 then fromBytesLoop rest tiles units tiles.length
      else if tiles.length % width ≠ 0 then .error "non-rectangular input"
      else fromBytesLoop rest tiles units width
    else if byte = 35 then fromBytesLoop rest (tiles ++ [Tile.Wall]) units width
    else if byte = 46 then fromBytesLoop rest (tiles ++ [Tile.Open]) units width
    else if byte = 69 ∨ byte = 71 then
      fromBytesLoop rest (tiles ++ [Tile.Unit])
        (alInsert tiles.length ⟨200, 3, if byte = 69 then .Elf else .Goblin, units.length⟩ units)
        width
    else .error "invalid byte"

def fromBytes (input : List Nat) : Except String Board := fromBytesLoop input [] [] 0

/-- ASCII bytes of a string literal (used for concrete test grids). -/
def strBytes (s : String) : List Nat := s.data.map Char.toNat

/-! ### Concrete boards used by the claim theorems -/

def emptyBoard : Board := ⟨[], [], 0, 3, false⟩

/-- The specification's 7×7 reference grid (expected outcome 47 × 590). -/
def refBytes : List Nat :=
  strBytes "#######\n#.G...#\n#...EG#\n#.#.#G#\n#..G#E#\n#.....#\n#######\n"

def refBoard : Board := (fromBytes refBytes).toOption.getD emptyBoard

/-- The state of the reference battle after `next_round` has returned `true`
47 times and then `false` once. -/
def refFinal : Board :=
  { tiles :=
      [Tile.Wall, Tile.Wall, Tile.Wall, Tile.Wall, Tile.Wall, Tile.Wall, Tile.Wall,
       Tile.Wall, Tile.Unit, Tile.Open, Tile.Open, Tile.Open, Tile.Open, Tile.Wall,
       Tile.Wall, Tile.Open, Tile.Unit, Tile.Open, Tile.Open, Tile.Open, Tile.Wall,
       Tile.Wall, Tile.Open, Tile.Wall, Tile.Open, Tile.Wall, Tile.Unit, Tile.Wall,
       Tile.Wall, Tile.Open, Tile.Open, Tile.Open, Tile.Wall, Tile.Open, Tile.Wall,
       Tile.Wall, Tile.Open, Tile.Open, Tile.Open, Tile.Open, Tile.Unit, Tile.Wall,
       Tile.Wall, Tile.Wall, Tile.Wall, Tile.Wall, Tile.Wall, Tile.Wall, Tile.Wall]
    units :=
      [(8, ⟨200, 3, UnitKind.Goblin, 0⟩), (16, ⟨131, 3, UnitKind.Goblin, 2⟩),
       (26, ⟨59, 3, UnitKind.Goblin, 3⟩), (40, ⟨200, 3, UnitKind.Goblin, 4⟩)]
    width := 7
    elf_attack := 3
    elf_casualty := true }

/-- C5 counterexample input: two rows of different widths (2 and 4), where
the second row's length is a multiple of the first row's width. -/
def raggedBytes : List Nat := strBytes "##\n####\n"

/-- C1 counterexample grid.  During round 1 the elf with id 0 (initially at
position 11) moves to 18 and the elf with id 1 (initially at 15) moves
to 16; the goblin at 17 then has both elves adjacent at 200 hp each. -/
def c1Bytes : List Nat := strBytes "#######\n#..#E.#\n#E.G..#\n#.....#\n#######\n"

def c1Board : Board := (fromBytes c1Bytes).toOption.getD emptyBoard

/-- The c1 battle state after the first two turns of round 1 (just before
the goblin at 17 takes its turn inside `next_round`). -/
def c1Mid : Board := (Board.turnsLoop (c1Board.snapshot.take 2) c1Board).1

/-- Modelled from the spec: compare adjacent enemies by
"lowest current hp, ties broken by reading order of position". -/
def specKeyLt : Nat × Nat → Nat × Nat → Bool
  | (h1, p1), (h2, p2) => if h1 ≠ h2 then h1 < h2 else p1 < p2

/-- Modelled from the spec: the minimum of the adjacent-enemy list under
hp-then-position order. -/
def specMinEntry : List (Unit × Nat) → Option (Unit × Nat)
  | [] => none
  | x :: xs =>
    some (xs.foldl
      (fun best y => if specKeyLt (y.1.hp, y.2) (best.1.hp, best.2) then y else best) x)

/-- Modelled from the spec: the attack target "the adjacent enemy with
lowest current hp, ties broken by reading order of position". -/
def Board.specChooseEnemy (b : Board) (p : Nat) (k : UnitKind) : Option (Unit × Nat) :=
  specMinEntry ((b.enemyNeighbors p k).map (fun q => (alGetD q b.units, q)))

/-- C2 counterexample grid 1: a single elf-goblin duel where the elf wins
without ever being at risk of dying first, so the run at the unmodified
attack power 3 (boost 0) already has no elf death. -/
def duelBytes : List Nat := strBytes "#####\n#EG.#\n#####\n"

def duelBoard : Board := (fromBytes duelBytes).toOption.getD emptyBoard

/-- C2 counterexample grid 2: a 9×9 grid with a single elf among five
goblins.  The lone elf always dies, and its death necessarily falls in the
battle-ending round, where the sweep never reads `elf_casualty`. -/
def nineBytes : List Nat :=
  strBytes
    "#########\n#G......#\n#.E.#...#\n#..##..G#\n#...##..#\n#...#...#\n#.G...G.#\n#.....G.#\n#########\n"

def nineBoard : Board := (fromBytes nineBytes).toOption.getD emptyBoard

/-- The final state of the `nineBoard` run at attack power 4: only goblins
remain and the elf-casualty flag is set. -/
def nineFinal : Board :=
  { tiles :=
      [Tile.Wall, Tile.Wall, Tile.Wall, Tile.Wall, Tile.Wall, Tile.Wall, Tile.Wall, Tile.Wall, Tile.Wall,
       Tile.Wall, Tile.Open, Tile.Unit, Tile.Open, Tile.Open, Tile.Open, Tile.Open, Tile.Open, Tile.Wall,
       Tile.Wall, Tile.Unit, Tile.Open, Tile.Unit, Tile.Wall, Tile.Open, Tile.Open, Tile.Open, Tile.Wall,
       Tile.Wall, Tile.Open, Tile.Unit, Tile.Wall, Tile.Wall, Tile.Open, Tile.Open, Tile.Open, Tile.Wall,
       Tile.Wall, Tile.Open, Tile.Open, Tile.Open, Tile.Wall, Tile.Wall, Tile.Open, Tile.Open, Tile.Wall,
       Tile.Wall, Tile.Open, Tile.Unit, Tile.Open, Tile.Wall, Tile.Open, Tile.Open, Tile.Open, Tile.Wall,
       Tile.Wall, Tile.Open, Tile.Open, Tile.Open, Tile.Open, Tile.Open, Tile.Open, Tile.Open, Tile.Wall,
       Tile.Wall, Tile.Open, Tile.Open, Tile.Open, Tile.Open, Tile.Open, Tile.Open, Tile.Open, Tile.Wall,
       Tile.Wall, Tile.Wall, Tile.Wall, Tile.Wall, Tile.Wall, Tile.Wall, Tile.Wall, Tile.Wall, Tile.Wall]
    units :=
      [(11, ⟨116, 3, UnitKind.Goblin, 0⟩), (19, ⟨200, 3, UnitKind.Goblin, 4⟩),
       (21, ⟨200, 3, UnitKind.Goblin, 2⟩), (29, ⟨200, 3, UnitKind.Goblin, 3⟩),
       (47, ⟨200, 3, UnitKind.Goblin, 5⟩)]
    width := 9
    elf_attack := 4
    elf_casualty := true }

/-- The final state of the `duelBoard` run at attack power 4. -/
def duelFinal4 : Board :=
  { tiles :=
      [Tile.Wall, Tile.Wall, Tile.Wall, Tile.Wall, Tile.Wall,
       Tile.Wall, Tile.Unit, Tile.Open, Tile.Open, Tile.Wall,
       Tile.Wall, Tile.Wall, Tile.Wall, Tile.Wall, Tile.Wall]
    units := [(6, ⟨53, 3, UnitKind.Elf, 0⟩)]
    width := 5
    elf_attack := 4
    elf_casualty := false }

/-- The final state of the `duelBoard` run at the unmodified attack power 3:
the elf survives, no elf casualty. -/
def duelFinal3 : Board :=
  { tiles :=
      [Tile.Wall, Tile.Wall, Tile.Wall, Tile.Wall, Tile.Wall,
       Tile.Wall, Tile.Unit, Tile.Open, Tile.Open, Tile.Wall,
       Tile.Wall, Tile.Wall, Tile.Wall, Tile.Wall, Tile.Wall]
    units := [(6, ⟨2, 3, UnitKind.Elf, 0⟩)]
    width := 5
    elf_attack := 3
    elf_casualty := false }

/-- C8 witness grid: the elf has a living enemy, but neither an adjacent
one nor any candidate destination (the goblin is walled in). -/
def blockedBytes : List Nat := strBytes "#####\n#E#G#\n#####\n"

def blockedBoard : Board := (fromBytes blockedBytes).toOption.getD emptyBoard

/-- Modelled on the spec's wording: during the processing of the listed
turns, some unit that is alive when its turn arrives finds zero living
enemies anywhere. -/
inductive RoundAborts : Board → List (Nat × Nat) → Prop
  | here {b : Board} {e : Nat × Nat} {rest : List (Nat × Nat)} {u : Unit} :
      alGet e.1 b.units = some u → u.id = e.2 →
      (b.enemyList u.kind).isEmpty = true → RoundAborts b (e :: rest)
  | later {b : Board} {e : Nat × Nat} {rest : List (Nat × Nat)} {b' : Board} :
      b.processTurn e.1 e.2 = some b' → RoundAborts b' rest →
      RoundAborts b (e :: rest)

/-- Iterate `next_round` while it returns `true`. -/
def roundsChain : Nat → Board → Option Board
  | 0, b => some b
  | k + 1, b =>
    match b.nextRound with
    | (b', true) => roundsChain k b'
    | (_, false) => none

/-- The tile array mirrors the unit registry. -/
def Board.sync (b : Board) : Prop :=
  ∀ p : Nat, b.tileAt p = Tile.Unit ↔ (alGet p b.units).isSome = true

/-- The registry keys are strictly increasing (as in a `BTreeMap`). -/
def Board.wfUnits (b : Board) : Prop :=
  List.Pairwise (· < ·) (b.units.map Prod.fst)

/-! ### Semantic layer: paths through open tiles -/

/-- One movement step: `q` is a grid neighbour of `p` and is an open tile. -/
def adjOpen (b : Board) (p q : Nat) : Prop :=
  q ∈ b.neighborsList p ∧ b.tileAt q = Tile.Open

/-- `l` is a walk starting (but not including) `p`, each step moving to an
adjacent open tile. -/
def pathOk (b : Board) : Nat → List Nat → Prop
  | _, [] => True
  | p, q :: l => adjOpen b p q ∧ pathOk b q l

/-- `q` is reachable from `p` in exactly `n` steps through open tiles. -/
def StepsN (b : Board) (p q : Nat) (n : Nat) : Prop :=
  ∃ l, pathOk b p l ∧ l.length = n ∧ l.getLastD p = q

def Reach (b : Board) (p q : Nat) : Prop := ∃ n, StepsN b p q n

/-- `m` is the exact shortest-path distance from `p` to `q`. -/
def sdIs (b : Board) (p q m : Nat) : Prop :=
  StepsN b p q m ∧ ∀ k, StepsN b p q k → m ≤ k

/-- The grid is fully enclosed by walls: every tile in the first or last
row or the first or last column is a wall (and the tile array is a whole
number of rows). -/
def Board.bordered (b : Board) : Prop :=
  1 ≤ b.width ∧ b.width ∣ b.tiles.length ∧
  ∀ p < b.tiles.length,
    (p < b.width ∨ b.tiles.length ≤ p + b.width ∨
     p % b.width = 0 ∨ (p + 1) % b.width = 0) →
    b.tiles.getD p Tile.Wall = Tile.Wall

/-! ### The BFS loop invariant -/

/-- Number of tiles whose recorded distance is still the `usize::MAX`
sentinel. -/
def unfinCount (dist : List Nat) : Nat := (dist.filter (fun x => x == MAXD)).length

/-- The inductive invariant of the `bfs_step` queue loop. -/
structure BfsInv (b : Board) (src : Nat) (dst : List Nat)
    (Q : List (Nat × Nat)) (dist : List Nat) (maxd : Nat) : Prop where
  len_eq : dist.length = b.tiles.length
  fin_tile : ∀ p, dist.getD p MAXD ≠ MAXD → p = src ∨ b.tileAt p = Tile.Open
  fin_sd : ∀ p, dist.getD p MAXD ≠ MAXD → sdIs b src p (dist.getD p MAXD)
  fin_le_q : ∀ p, dist.getD p MAXD ≠ MAXD → ∀ e ∈ Q, dist.getD p MAXD ≤ e.1
  q_steps : ∀ e ∈ Q, StepsN b src e.2 e.1 ∧ (e.2 = src ∨ b.tileAt e.2 = Tile.Open)
  q_mono : List.Pairwise (fun e f : Nat × Nat => e.1 ≤ f.1) Q
  q_tight : ∀ e ∈ Q, ∀ f ∈ Q, e.1 ≤ f.1 + 1
  front : ∀ q, Reach b src q → dist.getD q MAXD = MAXD →
    ∃ e ∈ Q, dist.getD e.2 MAXD = MAXD ∧ sdIs b src e.2 e.1 ∧
      ∃ k, StepsN b e.2 q k ∧ sdIs b src q (e.1 + k)
  maxd_unset : maxd = MAXD → ∀ dm ∈ dst, dist.getD dm MAXD = MAXD
  maxd_set : maxd ≠ MAXD →
    (∃ dm ∈ dst, dist.getD dm MAXD = maxd ∧ sdIs b src dm maxd) ∧
    ∀ d' ∈ dst, ∀ k, StepsN b src d' k → maxd ≤ k
  maxd_le : maxd ≠ MAXD → maxd ≤ b.bfsFuel

/-- What holds of the distance array and `max_distance` when the loop
exits. -/
structure BfsPost (b : Board) (src : Nat) (dst : List Nat)
    (dist : List Nat) (maxd : Nat) : Prop where
  fin_tile : ∀ p, dist.getD p MAXD ≠ MAXD → p = src ∨ b.tileAt p = Tile.Open
  fin_sd : ∀ p, dist.getD p MAXD ≠ MAXD → sdIs b src p (dist.getD p MAXD)
  complete : ∀ q m, sdIs b src q m → m ≤ maxd → dist.getD q MAXD = m
  maxd_unset : maxd = MAXD → ∀ dm ∈ dst, ¬ Reach b src dm
  maxd_set : maxd ≠ MAXD →
    (∃ dm ∈ dst, dist.getD dm MAXD = maxd ∧ sdIs b src dm maxd) ∧
    ∀ d' ∈ dst, ∀ k, StepsN b src d' k → maxd ≤ k
  maxd_le : maxd ≠ MAXD → maxd ≤ b.bfsFuel

/-! ### The part-1 round loop characterised -/

theorem runRounds_fuel_mono (fuel : Nat) :
    ∀ {fuel' : Nat} {b : Board} {i r : Nat} {bf : Board},
      runRounds fuel b i = (r, bf, true) → fuel ≤ fuel' →
      runRounds fuel' b i = (r, bf, true) := by
  induction fuel with
  | zero =>
    intro fuel' b i r bf h _
    simp [runRounds] at h
  | succ n ih =>
    intro fuel' b i r bf h hle
    obtain ⟨m, rfl⟩ : ∃ m, fuel' = m + 1 := ⟨fuel' - 1, by omega⟩
    rw [runRounds] at h ⊢
    rcases hnr : b.nextRound with ⟨b', fl⟩
    rw [hnr] at h
    cases fl
    · exact h
    · exact ih h (by omega)

set_option maxRecDepth 100000 in
/-- Single-evaluation record of the whole 48-round reference run. -/
theorem refRun_eq : runRounds 48 refBoard 0 = (47, refFinal, true) := by rfl

/-- C6: on the 7×7 reference grid at default attack power, the battle
completes exactly 47 rounds, leaves 590 total hp, and scores 27730. -/
theorem c6_reference_battle (fuel : Nat) (h : 48 ≤ fuel) :
    (runRounds fuel refBoard 0).1 = 47 ∧
    (runRounds fuel refBoard 0).2.1.remainingHp = 590 ∧
    part1Score refBoard fuel = 27730 := by
  have key := runRounds_fuel_mono 48 refRun_eq h
  rw [part1Score, key]
  refine ⟨rfl, ?_, ?_⟩ <;> rfl

/-- Witness for C6 at the smallest sufficient fuel. -/
theorem c6_reference_battle_witness :
    (runRounds 48 refBoard 0).1 = 47 ∧
    (runRounds 48 refBoard 0).2.1.remainingHp = 590 ∧
    part1Score refBoard 48 = 27730 :=
  c6_reference_battle 48 (Nat.le_refl 48)

/-! ### C5: `from_bytes` on malformed input -/

/-- C5 counterexample: the input `"##\n####\n"` has rows of widths 2 and 4,
yet `from_bytes` accepts it (as a width-2 board with six wall tiles),
because each newline only checks that the running tile count is a multiple
of the width fixed at the first newline. -/
theorem c5_counterexample :
    fromBytes raggedBytes =
      Except.ok ⟨[Tile.Wall, Tile.Wall, Tile.Wall, Tile.Wall, Tile.Wall, Tile.Wall],
        [], 2, 3, false⟩ := by
  rfl

theorem fromBytesLoop_error_of_invalid (input : List Nat) :
    ∀ tiles units width, (∃ c ∈ input, c ∉ ([10, 35, 46, 69, 71] : List Nat)) →
      ∃ e, fromBytesLoop input tiles units width = Except.error e := by
  induction input with
  | nil => simp
  | cons c rest ih =>
    intro tiles units width h
    obtain ⟨c', hc', hbad⟩ := h
    have hrest : c' ∈ rest → ∃ e', ∀ t u w, fromBytesLoop rest t u w = Except.error e' →
        True := fun _ => ⟨"", fun _ _ _ _ => trivial⟩
    rw [fromBytesLoop]
    rcases List.mem_cons.mp hc' with rfl | hmem
    · -- the head byte itself is invalid
      simp only [List.mem_cons, List.mem_singleton] at hbad
      push_neg at hbad
      obtain ⟨h10, h35, h46, h69, h71⟩ := hbad
      simp [h10, h35, h46, h69, h71]
    · -- the invalid byte is further down: every branch errors or recurses
      by_cases h10 : c = 10
      · subst h10
        simp only [if_pos rfl]
        by_cases hw : width = 0
        · simpa [hw] using ih tiles units tiles.length ⟨c', hmem, hbad⟩
        · by_cases hm : tiles.length % width ≠ 0
          · exact ⟨"non-rectangular input", by simp [hw, hm]⟩
          · simpa [hw, hm] using ih tiles units width ⟨c', hmem, hbad⟩
      · by_cases h35 : c = 35
        · simpa [h10, h35] using ih (tiles ++ [Tile.Wall]) units width ⟨c', hmem, hbad⟩
        · by_cases h46 : c = 46
          · simpa [h10, h35, h46] using ih (tiles ++ [Tile.Open]) units width ⟨c', hmem, hbad⟩
          · by_cases hEG : c = 69 ∨ c = 71
            · simpa [h10, h35, h46, hEG] using
                ih (tiles ++ [Tile.Unit])
                  (alInsert tiles.length
                    ⟨200, 3, if c = 69 then UnitKind.Elf else UnitKind.Goblin, units.length⟩
                    units) width ⟨c', hmem, hbad⟩
            · exact ⟨"invalid byte", by simp [h10, h35, h46, hEG]⟩

/-- C5 amended: `from_bytes` errors on every input containing a byte other
than `#`, `.`, `E`, `G` or newline; ragged grids are only rejected when a
newline arrives while the tile count is not a multiple of the width fixed
at the first newline (see the counterexample for an accepted ragged grid). -/
theorem c5_amended_invalid_byte (input : List Nat)
    (h : ∃ c ∈ input, c ∉ ([10, 35, 46, 69, 71] : List Nat)) :
    ∃ e, fromBytes input = Except.error e :=
  fromBytesLoop_error_of_invalid input [] [] 0 h

/-- Witness for the amended C5 at a concrete invalid input. -/
theorem c5_amended_invalid_byte_witness :
    ∃ e, fromBytes (strBytes "#x#") = Except.error e :=
  c5_amended_invalid_byte (strBytes "#x#") ⟨120, by decide, by decide⟩

/-! ### C1: the attack-target selection order -/

theorem keyLt_iff (a b : Nat × Nat × Nat × Nat × Nat) :
    keyLt a b = true ↔
      a.1 < b.1 ∨ a.1 = b.1 ∧ (a.2.1 < b.2.1 ∨ a.2.1 = b.2.1 ∧
        (a.2.2.1 < b.2.2.1 ∨ a.2.2.1 = b.2.2.1 ∧
          (a.2.2.2.1 < b.2.2.2.1 ∨ a.2.2.2.1 = b.2.2.2.1 ∧ a.2.2.2.2 < b.2.2.2.2))) := by
  obtain ⟨a1, a2, a3, a4, a5⟩ := a
  obtain ⟨b1, b2, b3, b4, b5⟩ := b
  simp only [keyLt, decide_eq_true_eq]
  split_ifs <;> simp_all

theorem keyLt_neg_trans {a b c : Nat × Nat × Nat × Nat × Nat}
    (hab : keyLt a b = false) (hbc : keyLt b c = false) : keyLt a c = false := by
  rw [Bool.eq_false_iff, Ne, keyLt_iff] at hab hbc ⊢
  omega

theorem keyLt_asymm {a b : Nat × Nat × Nat × Nat × Nat}
    (h : keyLt a b = true) : keyLt b a = false := by
  rw [keyLt_iff] at h
  rw [Bool.eq_false_iff, Ne, keyLt_iff]
  omega

theorem keyLt_irrefl (a : Nat × Nat × Nat × Nat × Nat) : keyLt a a = false := by
  rw [Bool.eq_false_iff, Ne, keyLt_iff]
  omega

theorem foldlMin_spec (xs : List (Unit × Nat)) :
    ∀ acc : Unit × Nat,
      (xs.foldl (fun best y =>
          if keyLt (ukey y.1 y.2) (ukey best.1 best.2) then y else best) acc) ∈ acc :: xs ∧
      ∀ y ∈ acc :: xs,
        keyLt (ukey y.1 y.2)
          (ukey (xs.foldl (fun best y =>
            if keyLt (ukey y.1 y.2) (ukey best.1 best.2) then y else best) acc).1
           (xs.foldl (fun best y =>
            if keyLt (ukey y.1 y.2) (ukey best.1 best.2) then y else best) acc).2) = false := by
  induction xs with
  | nil =>
    intro acc
    refine ⟨List.mem_singleton.mpr rfl, ?_⟩
    intro y hy
    rw [List.mem_singleton] at hy
    subst hy
    exact keyLt_irrefl _
  | cons z xs ih =>
    intro acc
    simp only [List.foldl_cons]
    by_cases hza : keyLt (ukey z.1 z.2) (ukey acc.1 acc.2) = true
    · rw [if_pos hza]
      obtain ⟨ihmem, ihmin⟩ := ih z
      refine ⟨?_, ?_⟩
      · rcases List.mem_cons.mp ihmem with h | h <;> simp [h]
      · intro y hy
        have hz := ihmin z (List.mem_cons_self _ _)
        rcases List.mem_cons.mp hy with rfl | hy'
        · exact keyLt_neg_trans (keyLt_asymm hza) hz
        · rcases List.mem_cons.mp hy' with rfl | hy''
          · exact hz
          · exact ihmin _ (List.mem_cons_of_mem _ hy'')
    · rw [if_neg hza]
      obtain ⟨ihmem, ihmin⟩ := ih acc
      refine ⟨?_, ?_⟩
      · rcases List.mem_cons.mp ihmem with h | h <;> simp [h]
      · intro y hy
        have hacc := ihmin acc (List.mem_cons_self _ _)
        rcases List.mem_cons.mp hy with rfl | hy'
        · exact hacc
        · rcases List.mem_cons.mp hy' with rfl | hy''
          · exact keyLt_neg_trans (Bool.eq_false_iff.mpr hza) hacc
          · exact ihmin _ (List.mem_cons_of_mem _ hy'')

theorem minEntry_none_iff (l : List (Unit × Nat)) : minEntry l = none ↔ l = [] := by
  cases l <;> simp [minEntry]

theorem minEntry_spec (l : List (Unit × Nat)) (x : Unit × Nat) (h : minEntry l = some x) :
    x ∈ l ∧ ∀ y ∈ l, keyLt (ukey y.1 y.2) (ukey x.1 x.2) = false := by
  cases l with
  | nil => simp [minEntry] at h
  | cons a t =>
    rw [minEntry, Option.some_inj] at h
    obtain ⟨hmem, hmin⟩ := foldlMin_spec t a
    rw [h] at hmem hmin
    exact ⟨hmem, hmin⟩

/-- C1 counterexample: in round 1 of `c1Board`, the goblin at 17 takes its
turn with two adjacent elves that tie at 200 hp; the code attacks the elf at
position 18 (lower id 0), while the spec's hp-then-reading-order rule picks
the elf at position 16.  After the full `next_round`, the elf at 18 has lost
3 hp and the elf at 16 is untouched. -/
theorem c1_counterexample :
    c1Mid.enemyNeighbors 17 UnitKind.Goblin = [16, 18] ∧
    alGet 16 c1Mid.units = some ⟨200, 3, UnitKind.Elf, 1⟩ ∧
    alGet 18 c1Mid.units = some ⟨200, 3, UnitKind.Elf, 0⟩ ∧
    c1Mid.chooseEnemy 17 UnitKind.Goblin = some (⟨200, 3, UnitKind.Elf, 0⟩, 18) ∧
    c1Mid.specChooseEnemy 17 UnitKind.Goblin = some (⟨200, 3, UnitKind.Elf, 1⟩, 16) ∧
    alGet 16 (c1Board.nextRound.1.units) = some ⟨200, 3, UnitKind.Elf, 1⟩ ∧
    alGet 18 (c1Board.nextRound.1.units) = some ⟨197, 3, UnitKind.Elf, 0⟩ :=
  ⟨rfl, rfl, rfl, rfl, rfl, rfl, rfl⟩

/-- C1 amended: the attacked adjacent enemy is the minimum under the Rust
derived order on `(Unit, position)` — hp, then attack power, then kind, then
id, and only then position.  Among enemies (which share attack and kind) an
hp tie is therefore broken by unit id, not by reading order of position. -/
theorem c1_amended_attack_selection (b : Board) (p : Nat) (k : UnitKind) :
    (b.chooseEnemy p k = none ↔ b.enemyNeighbors p k = []) ∧
    ∀ e ep, b.chooseEnemy p k = some (e, ep) →
      (e, ep) ∈ (b.enemyNeighbors p k).map (fun q => (alGetD q b.units, q)) ∧
      ∀ x ∈ (b.enemyNeighbors p k).map (fun q => (alGetD q b.units, q)),
        keyLt (ukey x.1 x.2) (ukey e ep) = false := by
  constructor
  · rw [Board.chooseEnemy, minEntry_none_iff, List.map_eq_nil_iff]
  · intro e ep h
    exact minEntry_spec _ _ h

/-! ### C2: the boost sweep -/

set_option maxRecDepth 1000000 in
theorem nineRunBoost_eq :
    runBoost 64 { nineBoard with elf_attack := 4 } 0 = BoostRun.ended 20 nineFinal := by rfl

set_option maxRecDepth 1000000 in
theorem duelRunBoost_eq :
    runBoost 300 { duelBoard with elf_attack := 4 } 0 = BoostRun.ended 50 duelFinal4 := by rfl

set_option maxRecDepth 1000000 in
theorem duelRun_eq : runRounds 300 duelBoard 0 = (67, duelFinal3, true) := by rfl

set_option maxRecDepth 1000000 in
/-- C2 counterexample: the sweep's reported boost is not the minimal
`b ≥ 0` whose run has no elf death.  (1) On `nineBoard` the sweep reports
attack 4 (boost 1), yet that very accepted run ends with `elf_casualty`
set — the lone elf died during the battle-ending round, which the sweep
never checks, and the final board holds only goblins.  (2) On `duelBoard`
the full simulation at the unmodified attack 3 (boost 0) runs to battle end
with no elf death, but the sweep still reports attack 4 (boost 1), because
attack values below 4 are never tried. -/
theorem c2_counterexample :
    (part2Result nineBoard 8 64 = some (4, 20, 18320) ∧
      runBoost 64 { nineBoard with elf_attack := 4 } 0 = BoostRun.ended 20 nineFinal ∧
      nineFinal.elf_casualty = true ∧
      nineFinal.units.all (fun pu => pu.2.kind == UnitKind.Goblin) = true ∧
      nineBoard.units.any (fun pu => pu.2.kind == UnitKind.Elf) = true) ∧
    (part2Result duelBoard 8 300 = some (4, 50, 2650) ∧
      runRounds 300 duelBoard 0 = (67, duelFinal3, true) ∧
      duelFinal3.elf_casualty = false) := by
  refine ⟨⟨?_, nineRunBoost_eq, rfl, rfl, ?_⟩, ⟨?_, duelRun_eq, rfl⟩⟩
  · rw [part2Result, show (8 : Nat) = 7 + 1 from rfl, searchBoost, nineRunBoost_eq]
    rfl
  · rfl
  · rw [part2Result, show (8 : Nat) = 7 + 1 from rfl, searchBoost, duelRunBoost_eq]
    rfl

theorem searchBoost_spec (orig : Board) (tries : Nat) :
    ∀ fuel a0 a i s, searchBoost orig tries fuel a0 = some (a, i, s) →
      a0 ≤ a ∧
      (∃ bf, runBoost fuel { orig with elf_attack := a } 0 = BoostRun.ended i bf ∧
        s = i * bf.remainingHp) ∧
      ∀ a', a0 ≤ a' → a' < a →
        runBoost fuel { orig with elf_attack := a' } 0 = BoostRun.casualty := by
  induction tries with
  | zero =>
    intro fuel a0 a i s h
    simp [searchBoost] at h
  | succ n ih =>
    intro fuel a0 a i s h
    rw [searchBoost] at h
    cases hr : runBoost fuel { orig with elf_attack := a0 } 0 with
    | ended i' bf =>
      rw [hr] at h
      obtain ⟨rfl, rfl, rfl⟩ : a0 = a ∧ i' = i ∧ i' * bf.remainingHp = s := by
        injection h with h'
        exact ⟨congrArg Prod.fst h', congrArg (fun t => t.2.1) h',
          congrArg (fun t => t.2.2) h'⟩
      exact ⟨Nat.le_refl _, ⟨bf, hr, rfl⟩, fun a' h1 h2 => absurd h1 (by omega)⟩
    | casualty =>
      rw [hr] at h
      obtain ⟨h0, hend, hmin⟩ := ih fuel (a0 + 1) a i s h
      refine ⟨by omega, hend, ?_⟩
      intro a' h1 h2
      rcases Nat.eq_or_lt_of_le h1 with rfl | hlt
      · exact hr
      · exact hmin a' hlt h2
    | fuelOut =>
      rw [hr] at h
      exact absurd h (by simp)

/-- C2 amended: the value the part-2 sweep reports is the first attack power
`a ≥ 4` (boost `a - 3 ≥ 1`) whose fresh-copy simulation reaches battle end
without `elf_casualty` ever being observed true at the end of a round that
returned `true`; every attack power in `[4, a)` was tried and aborted on an
observed elf casualty.  Elf deaths inside the battle-ending round are not
observed, and boost 0 is never tried. -/
theorem c2_amended_sweep (orig : Board) (tries fuel a i s : Nat)
    (h : part2Result orig tries fuel = some (a, i, s)) :
    4 ≤ a ∧
    (∃ bf, runBoost fuel { orig with elf_attack := a } 0 = BoostRun.ended i bf ∧
      s = i * bf.remainingHp) ∧
    ∀ a', 4 ≤ a' → a' < a →
      runBoost fuel { orig with elf_attack := a' } 0 = BoostRun.casualty :=
  searchBoost_spec orig tries fuel 4 a i s h

/-- Witness for the amended C2 on the duel grid. -/
theorem c2_amended_sweep_witness :
    4 ≤ 4 ∧
    (∃ bf, runBoost 300 { duelBoard with elf_attack := 4 } 0 = BoostRun.ended 50 bf ∧
      2650 = 50 * bf.remainingHp) ∧
    ∀ a', 4 ≤ a' → a' < 4 →
      runBoost 300 { duelBoard with elf_attack := a' } 0 = BoostRun.casualty :=
  c2_amended_sweep duelBoard 8 300 4 50 2650 rfl

/-! ### C8: units with nothing to do are a no-op -/

/-- C8: a unit whose turn finds a living enemy somewhere but no adjacent
enemy, and either no candidate destination or no reachable one, leaves the
whole battle state (tiles, every unit, itself) unchanged. -/
theorem c8_noop_turn (b : Board) (pos idv : Nat) (u : Unit)
    (hu : alGet pos b.units = some u) (hid : u.id = idv)
    (hene : (b.enemyList u.kind).isEmpty = false)
    (hadj : b.enemyNeighbors pos u.kind = [])
    (hdst : b.dstTiles u.kind = [] ∨ b.bfsStep pos (b.dstTiles u.kind) = none) :
    b.processTurn pos idv = some b := by
  have hkind : (alGetD pos b.units).kind = u.kind := by simp [alGetD, hu]
  have hch : b.chooseEnemy pos u.kind = none := by
    rw [Board.chooseEnemy, hadj]
    rfl
  have hatt : b.attackPhase pos = b := by
    rw [Board.attackPhase, hkind, hch]
  simp only [Board.processTurn, hu]
  rw [if_neg (by simp [hid])]
  rw [if_neg (by simp [hene])]
  rw [if_pos (by simp [hadj])]
  rcases hdst with hdst | hdst
  · rw [if_pos (by simp [hdst])]
  · by_cases hde : (b.dstTiles u.kind).isEmpty = true
    · rw [if_pos hde]
    · rw [if_neg hde, hdst, hatt]

/-- Witness for C8: on `blockedBoard` the elf's turn changes nothing. -/
theorem c8_noop_turn_witness : blockedBoard.processTurn 6 0 = some blockedBoard :=
  c8_noop_turn blockedBoard 6 0 ⟨200, 3, UnitKind.Elf, 0⟩ rfl rfl rfl rfl (Or.inl rfl)

/-- Witness for the amended C1 at the concrete mid-round state. -/
theorem c1_amended_attack_selection_witness :
    (⟨200, 3, UnitKind.Elf, 0⟩, 18) ∈
      (c1Mid.enemyNeighbors 17 UnitKind.Goblin).map (fun q => (alGetD q c1Mid.units, q)) ∧
    ∀ x ∈ (c1Mid.enemyNeighbors 17 UnitKind.Goblin).map (fun q => (alGetD q c1Mid.units, q)),
      keyLt (ukey x.1 x.2) (ukey ⟨200, 3, UnitKind.Elf, 0⟩ 18) = false :=
  (c1_amended_attack_selection c1Mid 17 UnitKind.Goblin).2 ⟨200, 3, UnitKind.Elf, 0⟩ 18 rfl



/-! ### Association-list lemmas -/

theorem alGet_mem {k : Nat} {l : List (Nat × Unit)} {v : Unit} (h : alGet k l = some v) :
    (k, v) ∈ l := by
  induction l with
  | nil => simp [alGet] at h
  | cons a t ih =>
    rw [alGet] at h
    by_cases hk : k = a.1
    · rw [if_pos hk] at h
      injection h with h
      subst h hk
      exact List.mem_cons_self _ _
    · rw [if_neg hk] at h
      exact List.mem_cons_of_mem _ (ih h)

theorem alErase_subset {k : Nat} {l : List (Nat × Unit)} : ∀ pu ∈ alErase k l, pu ∈ l := by
  induction l with
  | nil => simp [alErase]
  | cons a t ih =>
    intro pu hm
    rw [alErase] at hm
    by_cases hk : k = a.1
    · rw [if_pos hk] at hm
      exact List.mem_cons_of_mem _ hm
    · rw [if_neg hk] at hm
      rcases List.mem_cons.mp hm with rfl | hm'
      · exact List.mem_cons_self _ _
      · exact List.mem_cons_of_mem _ (ih pu hm')

theorem alInsert_mem {k : Nat} {v : Unit} {l : List (Nat × Unit)} :
    ∀ pu ∈ alInsert k v l, pu = (k, v) ∨ pu ∈ l := by
  induction l with
  | nil => simp [alInsert]
  | cons a t ih =>
    intro pu hm
    rw [alInsert] at hm
    by_cases h1 : k < a.1
    · rw [if_pos h1] at hm
      rcases List.mem_cons.mp hm with rfl | hm'
      · exact Or.inl rfl
      · exact Or.inr hm'
    · rw [if_neg h1] at hm
      by_cases h2 : k = a.1
      · rw [if_pos h2] at hm
        rcases List.mem_cons.mp hm with rfl | hm'
        · exact Or.inl rfl
        · exact Or.inr (List.mem_cons_of_mem _ hm')
      · rw [if_neg h2] at hm
        rcases List.mem_cons.mp hm with rfl | hm'
        · exact Or.inr (List.mem_cons_self _ _)
        · rcases ih pu hm' with h | h
          · exact Or.inl h
          · exact Or.inr (List.mem_cons_of_mem _ h)

theorem alModify_mem {k : Nat} {f : Unit → Unit} {l : List (Nat × Unit)} {v : Unit}
    (hv : alGet k l = some v) : ∀ pu ∈ alModify k f l, pu ∈ l ∨ pu = (k, f v) := by
  induction l with
  | nil => simp [alModify]
  | cons a t ih =>
    intro pu hm
    rw [alModify] at hm
    rw [alGet] at hv
    by_cases hk : k = a.1
    · rw [if_pos hk] at hm
      rw [if_pos hk] at hv
      injection hv with hv
      rcases List.mem_cons.mp hm with rfl | hm'
      · right
        rw [hv, hk]
      · exact Or.inl (List.mem_cons_of_mem _ hm')
    · rw [if_neg hk] at hm
      rw [if_neg hk] at hv
      rcases List.mem_cons.mp hm with rfl | hm'
      · exact Or.inl (List.mem_cons_self _ _)
      · rcases ih hv pu hm' with h | h
        · exact Or.inl (List.mem_cons_of_mem _ h)
        · exact Or.inr h

theorem alGet_eq_none_of_not_mem {k : Nat} {l : List (Nat × Unit)}
    (h : k ∉ l.map Prod.fst) : alGet k l = none := by
  induction l with
  | nil => rfl
  | cons a t ih =>
    rw [alGet]
    rw [List.map_cons, List.mem_cons] at h
    push_neg at h
    rw [if_neg h.1]
    exact ih h.2

theorem alGet_alErase_self {k : Nat} {l : List (Nat × Unit)}
    (h : (l.map Prod.fst).Nodup) : alGet k (alErase k l) = none := by
  induction l with
  | nil => rfl
  | cons a t ih =>
    rw [alErase]
    rw [List.map_cons, List.nodup_cons] at h
    by_cases hk : k = a.1
    · rw [if_pos hk]
      subst hk
      exact alGet_eq_none_of_not_mem h.1
    · rw [if_neg hk, alGet, if_neg hk]
      exact ih h.2

theorem alGet_alModify_self {k : Nat} {f : Unit → Unit} {l : List (Nat × Unit)} {v : Unit}
    (hv : alGet k l = some v) : alGet k (alModify k f l) = some (f v) := by
  induction l with
  | nil => simp [alGet] at hv
  | cons a t ih =>
    rw [alGet] at hv
    rw [alModify]
    by_cases hk : k = a.1
    · rw [if_pos hk] at hv
      injection hv with hv
      rw [if_pos hk, alGet, if_pos hk, hv]
    · rw [if_neg hk] at hv
      rw [if_neg hk, alGet, if_neg hk]
      exact ih hv

theorem alGet_alErase_ne {k k' : Nat} {l : List (Nat × Unit)} (h : k' ≠ k) :
    alGet k' (alErase k l) = alGet k' l := by
  induction l with
  | nil => rfl
  | cons a t ih =>
    rw [alErase]
    by_cases hk : k = a.1
    · rw [if_pos hk, alGet, if_neg (by rw [← hk]; exact h)]
    · rw [if_neg hk, alGet, alGet]
      by_cases hk' : k' = a.1
      · rw [if_pos hk', if_pos hk']
      · rw [if_neg hk', if_neg hk']
        exact ih

theorem alGet_alModify_ne {k k' : Nat} {f : Unit → Unit} {l : List (Nat × Unit)} (h : k' ≠ k) :
    alGet k' (alModify k f l) = alGet k' l := by
  induction l with
  | nil => rfl
  | cons a t ih =>
    rw [alModify]
    by_cases hk : k = a.1
    · rw [if_pos hk, alGet, alGet]
      have : k' ≠ a.1 := by rw [← hk]; exact h
      rw [if_neg this, if_neg this]
    · rw [if_neg hk, alGet, alGet]
      by_cases hk' : k' = a.1
      · rw [if_pos hk', if_pos hk']
      · rw [if_neg hk', if_neg hk']
        exact ih

theorem alGet_alInsert_self {k : Nat} {v : Unit} {l : List (Nat × Unit)} :
    alGet k (alInsert k v l) = some v := by
  induction l with
  | nil => simp [alInsert, alGet]
  | cons a t ih =>
    rw [alInsert]
    by_cases h1 : k < a.1
    · rw [if_pos h1, alGet, if_pos rfl]
    · rw [if_neg h1]
      by_cases h2 : k = a.1
      · rw [if_pos h2, alGet, if_pos rfl]
      · rw [if_neg h2, alGet, if_neg h2]
        exact ih

theorem alGet_alInsert_ne {k k' : Nat} {v : Unit} {l : List (Nat × Unit)} (h : k' ≠ k) :
    alGet k' (alInsert k v l) = alGet k' l := by
  induction l with
  | nil => simp [alInsert, alGet, h]
  | cons a t ih =>
    rw [alInsert]
    by_cases h1 : k < a.1
    · rw [if_pos h1, alGet, if_neg h, alGet]
    · rw [if_neg h1]
      by_cases h2 : k = a.1
      · rw [if_pos h2, alGet, if_neg h, alGet, if_neg (by rw [← h2]; exact h)]
      · rw [if_neg h2, alGet, alGet]
        by_cases hk' : k' = a.1
        · rw [if_pos hk', if_pos hk']
        · rw [if_neg hk', if_neg hk']
          exact ih

/-! ### C9: hp stays at least 1, removal is immediate -/

theorem chooseEnemy_some {b : Board} {p : Nat} {k : UnitKind} {e : Unit} {ep : Nat}
    (h : b.chooseEnemy p k = some (e, ep)) :
    alGet ep b.units = some e ∧ e.kind ≠ k ∧ ep ∈ b.neighborsList p := by
  obtain ⟨hmem, -⟩ := minEntry_spec _ _ h
  rw [List.mem_map] at hmem
  obtain ⟨q, hq, heq⟩ := hmem
  obtain ⟨rfl, rfl⟩ : alGetD q b.units = e ∧ q = ep :=
    ⟨congrArg Prod.fst heq, congrArg Prod.snd heq⟩
  rw [Board.enemyNeighbors, List.mem_filter] at hq
  obtain ⟨hnb, hcond⟩ := hq
  cases halq : alGet q b.units with
  | none => rw [halq] at hcond; simp at hcond
  | some w =>
    rw [halq] at hcond
    simp only [decide_eq_true_eq] at hcond
    refine ⟨?_, ?_, hnb⟩
    · rw [alGetD, halq]
      rfl
    · rw [alGetD, halq]
      exact hcond

theorem attackPhase_eq {b : Board} {pos : Nat} {e : Unit} {ep : Nat}
    (hch : b.chooseEnemy pos (alGetD pos b.units).kind = some (e, ep)) :
    b.attackPhase pos =
      if e.hp ≤ b.attackFor (alGetD pos b.units) then
        { b with
          elf_casualty := b.elf_casualty || (e.kind == UnitKind.Elf)
          tiles := b.tiles.set ep Tile.Open
          units := alErase ep b.units }
      else
        { b with
          units := alModify ep
            (fun x => { x with hp := x.hp - b.attackFor (alGetD pos b.units) }) b.units } := by
  rw [Board.attackPhase, hch]

theorem attackPhase_hp {b : Board} (pos : Nat) (hinv : ∀ pu ∈ b.units, 1 ≤ pu.2.hp) :
    ∀ pu ∈ (b.attackPhase pos).units, 1 ≤ pu.2.hp := by
  intro pu hmem
  rw [Board.attackPhase] at hmem
  split at hmem
  · exact hinv pu hmem
  · rename_i e ep hch
    split at hmem
    · exact hinv pu (alErase_subset pu hmem)
    · rename_i hlive
      obtain ⟨hget, -, -⟩ := chooseEnemy_some hch
      rcases alModify_mem hget pu hmem with h | h
      · exact hinv pu h
      · subst h
        show 1 ≤ e.hp - b.attackFor (alGetD pos b.units)
        omega

theorem moveUnit_hp {b : Board} (p q : Nat) (hinv : ∀ pu ∈ b.units, 1 ≤ pu.2.hp) :
    ∀ pu ∈ (b.moveUnit p q).units, 1 ≤ pu.2.hp := by
  intro pu hmem
  rw [Board.moveUnit] at hmem
  split at hmem
  · rename_i u halq
    rcases alInsert_mem pu hmem with h | h
    · rw [h]
      exact hinv (p, u) (alGet_mem halq)
    · exact hinv pu (alErase_subset pu h)
  · exact hinv pu hmem

theorem processTurn_hp {b : Board} {pos idv : Nat} {b' : Board}
    (hinv : ∀ pu ∈ b.units, 1 ≤ pu.2.hp) (h : b.processTurn pos idv = some b') :
    ∀ pu ∈ b'.units, 1 ≤ pu.2.hp := by
  rw [Board.processTurn] at h
  split at h
  · injection h with h
    subst h
    exact hinv
  · rename_i u0 halq
    split at h
    · injection h with h
      subst h
      exact hinv
    · split at h
      · exact absurd h (by simp)
      · split at h
        · split at h
          · injection h with h
            subst h
            exact hinv
          · split at h
            · injection h with h
              subst h
              exact attackPhase_hp pos hinv
            · rename_i nxt hb
              injection h with h
              subst h
              exact attackPhase_hp nxt (moveUnit_hp pos nxt hinv)
        · injection h with h
          subst h
          exact attackPhase_hp pos hinv

theorem turnsLoop_hp (l : List (Nat × Nat)) :
    ∀ b : Board, (∀ pu ∈ b.units, 1 ≤ pu.2.hp) →
      ∀ pu ∈ (Board.turnsLoop l b).1.units, 1 ≤ pu.2.hp := by
  induction l with
  | nil => intro b hinv; exact hinv
  | cons e rest ih =>
    intro b hinv
    rw [Board.turnsLoop]
    cases hp : b.processTurn e.1 e.2 with
    | none => exact hinv
    | some b' => exact ih b' (processTurn_hp hinv hp)

theorem fromBytesLoop_hp (input : List Nat) :
    ∀ tiles units width b, (∀ pu ∈ units, pu.2.hp = 200) →
      fromBytesLoop input tiles units width = Except.ok b →
      ∀ pu ∈ b.units, pu.2.hp = 200 := by
  induction input with
  | nil =>
    intro tiles units width b hacc h
    injection h with h
    subst h
    exact hacc
  | cons c rest ih =>
    intro tiles units width b hacc h
    rw [fromBytesLoop] at h
    by_cases h10 : c = 10
    · rw [if_pos h10] at h
      by_cases hw : width = 0
      · rw [if_pos hw] at h
        exact ih _ _ _ _ hacc h
      · rw [if_neg hw] at h
        by_cases hm : tiles.length % width ≠ 0
        · rw [if_pos hm] at h
          exact absurd h (by simp)
        · rw [if_neg hm] at h
          exact ih _ _ _ _ hacc h
    · rw [if_neg h10] at h
      by_cases h35 : c = 35
      · rw [if_pos h35] at h
        exact ih _ _ _ _ hacc h
      · rw [if_neg h35] at h
        by_cases h46 : c = 46
        · rw [if_pos h46] at h
          exact ih _ _ _ _ hacc h
        · rw [if_neg h46] at h
          by_cases hEG : c = 69 ∨ c = 71
          · rw [if_pos hEG] at h
            refine ih _ _ _ _ ?_ h
            intro pu hm
            rcases alInsert_mem pu hm with hh | hh
            · rw [hh]
            · exact hacc pu hh
          · rw [if_neg hEG] at h
            exact absurd h (by simp)

/-- C9: hp is never zero or negative: every parsed unit starts at hp 200;
`next_round` keeps every stored hp at least 1; and in the attack step a
target whose hp is at most the attacker's power is removed from the
registry during that very turn, while otherwise its hp is decremented
without underflow (the subtraction happens only when hp exceeds the
attack power, leaving at least 1). -/
theorem c9_hp_invariant :
    (∀ input b, fromBytes input = Except.ok b → ∀ pu ∈ b.units, pu.2.hp = 200) ∧
    (∀ b : Board, (∀ pu ∈ b.units, 1 ≤ pu.2.hp) →
      ∀ pu ∈ (b.nextRound).1.units, 1 ≤ pu.2.hp) ∧
    (∀ (b : Board) (pos : Nat) (e : Unit) (ep : Nat),
      (b.units.map Prod.fst).Nodup →
      b.chooseEnemy pos (alGetD pos b.units).kind = some (e, ep) →
      (e.hp ≤ b.attackFor (alGetD pos b.units) →
        alGet ep (b.attackPhase pos).units = none) ∧
      (b.attackFor (alGetD pos b.units) < e.hp →
        alGet ep (b.attackPhase pos).units =
          some { e with hp := e.hp - b.attackFor (alGetD pos b.units) } ∧
        1 ≤ e.hp - b.attackFor (alGetD pos b.units))) := by
  refine ⟨fun input b h => fromBytesLoop_hp input [] [] 0 b (by simp) h,
    fun b hinv => turnsLoop_hp _ b hinv, ?_⟩
  intro b pos e ep hnd hch
  obtain ⟨hget, -, -⟩ := chooseEnemy_some hch
  constructor
  · intro hkill
    rw [attackPhase_eq hch, if_pos hkill]
    exact alGet_alErase_self hnd
  · intro hlive
    rw [attackPhase_eq hch, if_neg (by omega)]
    refine ⟨alGet_alModify_self hget, by omega⟩



/-- Witness for C9 on the duel grid. -/
theorem c9_hp_invariant_witness : ∀ pu ∈ (duelBoard.nextRound).1.units, 1 ≤ pu.2.hp :=
  c9_hp_invariant.2.1 duelBoard (by decide)

/-! ### C4: aborted rounds and the battle score -/


theorem processTurn_none_iff {b : Board} {p i : Nat} :
    b.processTurn p i = none ↔
      ∃ u, alGet p b.units = some u ∧ u.id = i ∧ (b.enemyList u.kind).isEmpty = true := by
  constructor
  · intro h
    rw [Board.processTurn] at h
    split at h
    · exact absurd h (by simp)
    · rename_i u0 halq
      split at h
      · exact absurd h (by simp)
      · rename_i hne
        split at h
        · rename_i hemp
          exact ⟨u0, halq, by omega, hemp⟩
        · split at h
          · split at h
            · exact absurd h (by simp)
            · split at h
              · exact absurd h (by simp)
              · exact absurd h (by simp)
          · exact absurd h (by simp)
  · rintro ⟨u, hget, hid, hemp⟩
    simp only [Board.processTurn, hget]
    rw [if_neg (by simp [hid]), if_pos hemp]

theorem turnsLoop_false_iff (l : List (Nat × Nat)) :
    ∀ b : Board, (Board.turnsLoop l b).2 = false ↔ RoundAborts b l := by
  induction l with
  | nil =>
    intro b
    simp only [Board.turnsLoop]
    constructor
    · intro h
      simp at h
    · intro h
      cases h
  | cons e rest ih =>
    intro b
    rw [Board.turnsLoop]
    cases hp : b.processTurn e.1 e.2 with
    | none =>
      constructor
      · intro _
        obtain ⟨u, hget, hid, hemp⟩ := processTurn_none_iff.mp hp
        exact RoundAborts.here hget hid hemp
      · intro _
        rfl
    | some b' =>
      rw [ih b']
      constructor
      · intro h
        exact RoundAborts.later hp h
      · intro h
        cases h with
        | here hget hid hemp =>
          rw [processTurn_none_iff.mpr ⟨_, hget, hid, hemp⟩] at hp
          cases hp
        | later hp' hrest =>
          rw [hp] at hp'
          injection hp' with hp'
          rw [hp']
          exact hrest

theorem runRounds_chain {fuel : Nat} :
    ∀ {b : Board} {i r : Nat} {bf : Board}, runRounds fuel b i = (r, bf, true) →
      i ≤ r ∧ ∃ bi, roundsChain (r - i) b = some bi ∧ bi.nextRound = (bf, false) := by
  induction fuel with
  | zero =>
    intro b i r bf h
    simp [runRounds] at h
  | succ n ih =>
    intro b i r bf h
    rw [runRounds] at h
    rcases hnr : b.nextRound with ⟨b', fl⟩
    rw [hnr] at h
    cases fl
    · obtain ⟨rfl, rfl, -⟩ : i = r ∧ b' = bf ∧ True := by
        injection h with h1 h2
        injection h2 with h2 h3
        exact ⟨h1, h2, trivial⟩
      exact ⟨Nat.le_refl _, b, by simp [roundsChain], hnr⟩
    · obtain ⟨hle, bi, hchain, hend⟩ := ih h
      refine ⟨by omega, bi, ?_, hend⟩
      obtain ⟨m, hm⟩ : ∃ m, r - i = m + 1 := ⟨r - i - 1, by omega⟩
      rw [hm, roundsChain, hnr]
      have : r - (i + 1) = m := by omega
      rw [this] at hchain
      exact hchain

/-- C4: `next_round` returns `false` (the round is aborted, leaving the
remaining snapshot entries unprocessed) exactly when some unit that is
alive at its turn finds zero living enemies; and whenever the part-1 loop
terminates, the first `r` calls to `next_round` returned `true`, the next
returned `false`, and the reported score is `r` times the hp sum of the
surviving units (the aborted round not being counted). -/
theorem c4_abort_and_score :
    (∀ (b : Board) (l : List (Nat × Nat)),
      (Board.turnsLoop l b).2 = false ↔ RoundAborts b l) ∧
    (∀ (b : Board) (fuel r : Nat) (bf : Board), runRounds fuel b 0 = (r, bf, true) →
      ∃ bi, roundsChain r b = some bi ∧ bi.nextRound = (bf, false) ∧
        part1Score b fuel = r * bf.remainingHp) := by
  refine ⟨fun b l => turnsLoop_false_iff l b, ?_⟩
  intro b fuel r bf h
  obtain ⟨-, bi, hchain, hend⟩ := runRounds_chain h
  rw [Nat.sub_zero] at hchain
  refine ⟨bi, hchain, hend, ?_⟩
  rw [part1Score, h]

/-- Witness for C4 on the duel battle. -/
theorem c4_abort_and_score_witness :
    ∃ bi, roundsChain 67 duelBoard = some bi ∧ bi.nextRound = (duelFinal3, false) ∧
      part1Score duelBoard 300 = 67 * duelFinal3.remainingHp :=
  c4_abort_and_score.2 duelBoard 300 67 duelFinal3 duelRun_eq



/-! ### Membership through sort, dedup, filters -/

theorem mem_insSorted {x y : Nat} : ∀ {l : List Nat}, x ∈ insSorted y l ↔ x = y ∨ x ∈ l := by
  intro l
  induction l with
  | nil => simp [insSorted]
  | cons a t ih =>
    rw [insSorted]
    by_cases h : y ≤ a
    · rw [if_pos h]
      simp [List.mem_cons]
    · rw [if_neg h]
      simp only [List.mem_cons, ih]
      tauto

theorem mem_listSort {x : Nat} : ∀ {l : List Nat}, x ∈ listSort l ↔ x ∈ l := by
  intro l
  induction l with
  | nil => simp [listSort]
  | cons a t ih =>
    rw [listSort, mem_insSorted, ih]
    simp [List.mem_cons]

theorem mem_dedupConsec {x : Nat} : ∀ {l : List Nat}, x ∈ dedupConsec l ↔ x ∈ l := by
  intro l
  induction l with
  | nil => simp [dedupConsec]
  | cons a t ih =>
    cases t with
    | nil => simp [dedupConsec]
    | cons c t' =>
      rw [dedupConsec]
      by_cases hac : a = c
      · rw [if_pos hac, ih]
        subst hac
        simp [List.mem_cons]
      · rw [if_neg hac]
        simp only [List.mem_cons] at ih ⊢
        rw [ih]

theorem mem_openNeighbors_open {b : Board} {q p : Nat} (h : p ∈ b.openNeighbors q) :
    b.tileAt p = Tile.Open := by
  rw [Board.openNeighbors, List.mem_filter] at h
  have := h.2
  simpa using this

theorem mem_openNeighbors_nb {b : Board} {q p : Nat} (h : p ∈ b.openNeighbors q) :
    p ∈ b.neighborsList q := by
  rw [Board.openNeighbors, List.mem_filter] at h
  exact h.1

theorem backWalk_open {b : Board} {dist : List Nat} :
    ∀ (d : Nat) (ps : List Nat) (p : Nat),
      p ∈ Board.backWalk b dist (d + 2) ps → b.tileAt p = Tile.Open := by
  have step : ∀ (k : Nat) (ps : List Nat) (p : Nat),
      p ∈ dedupConsec (listSort
        (((ps.map b.openNeighbors).flatten).filter (fun q => dist.getD q MAXD == k))) →
      b.tileAt p = Tile.Open := by
    intro k ps p h
    rw [mem_dedupConsec, mem_listSort, List.mem_filter] at h
    obtain ⟨q, hq, hpq⟩ := List.mem_flatten.mp h.1
    obtain ⟨r, -, rfl⟩ := List.mem_map.mp hq
    exact mem_openNeighbors_open hpq
  intro d
  induction d with
  | zero =>
    intro ps p h
    simp only [Board.backWalk] at h
    exact step _ _ _ h
  | succ n ih =>
    intro ps p h
    simp only [Board.backWalk] at h
    exact ih _ p h

theorem mem_bfsCandidates_dst {b : Board} {src : Nat} {dst : List Nat} {p : Nat}
    (h : p ∈ b.bfsCandidates src dst) : p ∈ dst := by
  rw [Board.bfsCandidates, List.mem_filter] at h
  exact h.1

theorem bfsStep_open {b : Board} {src : Nat} {dst : List Nat}
    (hdst : ∀ d ∈ dst, b.tileAt d = Tile.Open) {p : Nat}
    (h : b.bfsStep src dst = some p) : b.tileAt p = Tile.Open := by
  rw [Board.bfsStep] at h
  split at h
  · exact absurd h (by simp)
  · rename_i position hmin
    split at h
    · exact absurd h (by simp)
    · have hposmem : position ∈ dst :=
        mem_bfsCandidates_dst (List.min?_mem (fun a b => min_choice a b) hmin)
      rcases hm : (b.bfsDist src dst).2 with _ | m
      · rw [hm] at h
        simp only [Board.backWalk, List.head?] at h
        obtain rfl : position = p := by simpa using h
        exact hdst _ hposmem
      · rcases hmm : m with _ | mm
        · rw [hm, hmm] at h
          simp only [Board.backWalk, List.head?] at h
          obtain rfl : position = p := by simpa using h
          exact hdst _ hposmem
        · rw [hm, hmm] at h
          exact backWalk_open mm [position] p
            (List.mem_of_mem_head? (Option.mem_def.mpr h))



/-! ### C7: tiles and registry never diverge -/


theorem wfUnits_nodup {b : Board} (h : b.wfUnits) : (b.units.map Prod.fst).Nodup :=
  h.imp fun hlt => Nat.ne_of_lt hlt

theorem getD_set_self {l : List Tile} {p : Nat} (t : Tile) (hp : p < l.length) :
    (l.set p t).getD p Tile.Wall = t := by
  rw [List.getD_eq_getElem?_getD, List.getElem?_set_eq_of_lt t hp]
  rfl

theorem getD_set_ne {l : List Tile} {p q : Nat} (t : Tile) (h : p ≠ q) :
    (l.set p t).getD q Tile.Wall = l.getD q Tile.Wall := by
  rw [List.getD_eq_getElem?_getD, List.getElem?_set_ne h, ← List.getD_eq_getElem?_getD]

theorem lt_length_of_tileAt_ne_wall {b : Board} {p : Nat} (h : b.tileAt p ≠ Tile.Wall) :
    p < b.tiles.length := by
  by_contra hns
  rw [Board.tileAt, List.getD_eq_getElem?_getD, List.getElem?_eq_none (by omega)] at h
  exact h rfl

theorem alGet_isSome_iff {k : Nat} : ∀ {l : List (Nat × Unit)},
    (alGet k l).isSome = true ↔ k ∈ l.map Prod.fst := by
  intro l
  induction l with
  | nil => simp [alGet]
  | cons a t ih =>
    rw [alGet]
    by_cases hk : k = a.1
    · rw [if_pos hk]
      simp [hk]
    · rw [if_neg hk]
      simp [hk, ih]

theorem alModify_keys {k : Nat} {f : Unit → Unit} : ∀ {l : List (Nat × Unit)},
    (alModify k f l).map Prod.fst = l.map Prod.fst := by
  intro l
  induction l with
  | nil => rfl
  | cons a t ih =>
    rw [alModify]
    by_cases hk : k = a.1
    · rw [if_pos hk]
      simp
    · rw [if_neg hk]
      simpa using ih

theorem alErase_sublist (k : Nat) (l : List (Nat × Unit)) :
    List.Sublist (alErase k l) l := by
  induction l with
  | nil => simp [alErase]
  | cons a t ih =>
    rw [alErase]
    by_cases hk : k = a.1
    · rw [if_pos hk]
      exact List.sublist_cons_self _ _
    · rw [if_neg hk]
      exact ih.cons₂ a

theorem alErase_pairwise {k : Nat} {l : List (Nat × Unit)}
    (h : List.Pairwise (· < ·) (l.map Prod.fst)) :
    List.Pairwise (· < ·) ((alErase k l).map Prod.fst) :=
  h.sublist ((alErase_sublist k l).map Prod.fst)

theorem alInsert_keys_mem {k x : Nat} {v : Unit} {l : List (Nat × Unit)}
    (h : x ∈ (alInsert k v l).map Prod.fst) : x = k ∨ x ∈ l.map Prod.fst := by
  rw [List.mem_map] at h
  obtain ⟨pu, hmem, rfl⟩ := h
  rcases alInsert_mem pu hmem with h | h
  · rw [h]
    exact Or.inl rfl
  · exact Or.inr (List.mem_map_of_mem _ h)

theorem alInsert_pairwise {k : Nat} {v : Unit} : ∀ {l : List (Nat × Unit)},
    List.Pairwise (· < ·) (l.map Prod.fst) →
    List.Pairwise (· < ·) ((alInsert k v l).map Prod.fst) := by
  intro l
  induction l with
  | nil => simp [alInsert]
  | cons a t ih =>
    intro h
    rw [List.map_cons, List.pairwise_cons] at h
    rw [alInsert]
    by_cases h1 : k < a.1
    · rw [if_pos h1]
      rw [List.map_cons, List.pairwise_cons]
      refine ⟨?_, ?_⟩
      · intro x hx
        rw [List.map_cons, List.mem_cons] at hx
        rcases hx with rfl | hx
        · exact h1
        · exact Nat.lt_trans h1 (h.1 x hx)
      · rw [List.map_cons, List.pairwise_cons]
        exact h
    · rw [if_neg h1]
      by_cases h2 : k = a.1
      · rw [if_pos h2]
        rw [List.map_cons, List.pairwise_cons]
        subst h2
        exact h
      · rw [if_neg h2]
        rw [List.map_cons, List.pairwise_cons]
        refine ⟨?_, ih h.2⟩
        intro x hx
        rcases alInsert_keys_mem hx with rfl | hx
        · omega
        · exact h.1 x hx

theorem attackPhase_sync {b : Board} (pos : Nat) (hs : b.sync) (hw : b.wfUnits) :
    (b.attackPhase pos).sync ∧ (b.attackPhase pos).wfUnits := by
  rw [Board.attackPhase]
  split
  · exact ⟨hs, hw⟩
  · rename_i e ep hch
    obtain ⟨hget, -, -⟩ := chooseEnemy_some hch
    have hepsome : (alGet ep b.units).isSome = true := by rw [hget]; rfl
    have heptile : b.tileAt ep = Tile.Unit := (hs ep).mpr hepsome
    have heplt : ep < b.tiles.length :=
      lt_length_of_tileAt_ne_wall (by rw [heptile]; simp)
    split
    · constructor
      · intro p
        show (b.tiles.set ep Tile.Open).getD p Tile.Wall = Tile.Unit ↔
          (alGet p (alErase ep b.units)).isSome = true
        by_cases hp : p = ep
        · subst hp
          rw [getD_set_self _ heplt, alGet_alErase_self (wfUnits_nodup hw)]
          simp
        · rw [getD_set_ne _ (Ne.symm hp), alGet_alErase_ne hp]
          exact hs p
      · exact alErase_pairwise hw
    · constructor
      · intro p
        show b.tileAt p = Tile.Unit ↔
          (alGet p (alModify ep
            (fun x => { x with hp := x.hp - b.attackFor (alGetD pos b.units) })
            b.units)).isSome = true
        rw [alGet_isSome_iff, alModify_keys, ← alGet_isSome_iff]
        exact hs p
      · show List.Pairwise (· < ·) ((alModify ep
          (fun x => { x with hp := x.hp - b.attackFor (alGetD pos b.units) })
          b.units).map Prod.fst)
        rw [alModify_keys]
        exact hw

theorem moveUnit_sync {b : Board} {p q : Nat} (hs : b.sync) (hw : b.wfUnits)
    (hp : (alGet p b.units).isSome = true) (hq : b.tileAt q = Tile.Open) :
    (b.moveUnit p q).sync ∧ (b.moveUnit p q).wfUnits := by
  obtain ⟨u, hu⟩ := Option.isSome_iff_exists.mp hp
  have hptile : b.tileAt p = Tile.Unit := (hs p).mpr hp
  have hplt : p < b.tiles.length := lt_length_of_tileAt_ne_wall (by rw [hptile]; simp)
  have hqlt : q < b.tiles.length := lt_length_of_tileAt_ne_wall (by rw [hq]; simp)
  have hpq : p ≠ q := by
    intro hpq
    rw [hpq, hq] at hptile
    cases hptile
  simp only [Board.moveUnit, hu]
  constructor
  · intro r
    show (Board.swapTiles b p q).getD r Tile.Wall = Tile.Unit ↔
      (alGet r (alInsert q u (alErase p b.units))).isSome = true
    rw [Board.swapTiles]
    by_cases hrq : r = q
    · subst hrq
      rw [getD_set_self _ (by rw [List.length_set]; exact hqlt), alGet_alInsert_self]
      rw [← Board.tileAt, hptile]
      simp
    · rw [getD_set_ne _ (Ne.symm hrq), alGet_alInsert_ne hrq]
      by_cases hrp : r = p
      · subst hrp
        rw [getD_set_self _ hplt, alGet_alErase_self (wfUnits_nodup hw)]
        rw [← Board.tileAt, hq]
        simp
      · rw [getD_set_ne _ (Ne.symm hrp), alGet_alErase_ne hrp]
        exact hs r
  · exact alInsert_pairwise (alErase_pairwise hw)

theorem mem_dstTiles_open {b : Board} {k : UnitKind} {d : Nat}
    (h : d ∈ b.dstTiles k) : b.tileAt d = Tile.Open := by
  rw [Board.dstTiles, mem_dedupConsec, mem_listSort, List.mem_filter] at h
  simpa using h.2

theorem processTurn_sync {b : Board} {pos idv : Nat} {b' : Board}
    (hs : b.sync) (hw : b.wfUnits) (h : b.processTurn pos idv = some b') :
    b'.sync ∧ b'.wfUnits := by
  rw [Board.processTurn] at h
  split at h
  · injection h with h
    subst h
    exact ⟨hs, hw⟩
  · rename_i u0 halq
    split at h
    · injection h with h
      subst h
      exact ⟨hs, hw⟩
    · split at h
      · exact absurd h (by simp)
      · split at h
        · split at h
          · injection h with h
            subst h
            exact ⟨hs, hw⟩
          · split at h
            · injection h with h
              subst h
              exact attackPhase_sync pos hs hw
            · rename_i nxt hb
              injection h with h
              subst h
              have hopen : b.tileAt nxt = Tile.Open :=
                bfsStep_open (fun d hd => mem_dstTiles_open hd) hb
              obtain ⟨hs', hw'⟩ :=
                moveUnit_sync hs hw (by rw [halq]; rfl) hopen
              exact attackPhase_sync nxt hs' hw'
        · injection h with h
          subst h
          exact attackPhase_sync pos hs hw



theorem getD_append_lt {tiles : List Tile} {t : Tile} {p : Nat} (h : p < tiles.length) :
    (tiles ++ [t]).getD p Tile.Wall = tiles.getD p Tile.Wall :=
  List.getD_append tiles [t] Tile.Wall p h

theorem getD_append_self {tiles : List Tile} {t : Tile} :
    (tiles ++ [t]).getD tiles.length Tile.Wall = t := by
  rw [List.getD_eq_getElem?_getD, List.getElem?_append_right (Nat.le_refl _)]
  simp

theorem getD_append_gt {tiles : List Tile} {t : Tile} {p : Nat} (h : tiles.length < p) :
    (tiles ++ [t]).getD p Tile.Wall = Tile.Wall := by
  rw [List.getD_eq_getElem?_getD, List.getElem?_eq_none (by simp; omega)]
  rfl

theorem getD_big {tiles : List Tile} {p : Nat} (h : tiles.length ≤ p) :
    tiles.getD p Tile.Wall = Tile.Wall := by
  rw [List.getD_eq_getElem?_getD, List.getElem?_eq_none h]
  rfl

theorem fromBytesLoop_sync (input : List Nat) :
    ∀ tiles units width b,
      (∀ p, tiles.getD p Tile.Wall = Tile.Unit ↔ (alGet p units).isSome = true) →
      List.Pairwise (· < ·) (units.map Prod.fst) →
      (∀ x ∈ units.map Prod.fst, x < tiles.length) →
      fromBytesLoop input tiles units width = Except.ok b →
      b.sync ∧ b.wfUnits := by
  induction input with
  | nil =>
    intro tiles units width b h1 h2 h3 h
    injection h with h
    subst h
    exact ⟨h1, h2⟩
  | cons c rest ih =>
    intro tiles units width b h1 h2 h3 h
    rw [fromBytesLoop] at h
    have happ : ∀ t : Tile, t ≠ Tile.Unit →
        ∀ p, (tiles ++ [t]).getD p Tile.Wall = Tile.Unit ↔ (alGet p units).isSome = true := by
      intro t ht p
      rcases Nat.lt_trichotomy p tiles.length with hp | hp | hp
      · rw [getD_append_lt hp]
        exact h1 p
      · subst hp
        rw [getD_append_self]
        rw [alGet_eq_none_of_not_mem (fun hmem => absurd (h3 _ hmem) (by omega))]
        simp [ht]
      · rw [getD_append_gt hp]
        rw [alGet_eq_none_of_not_mem (fun hmem => absurd (h3 _ hmem) (by omega))]
        simp
    have hbound : ∀ t : Tile, ∀ x ∈ units.map Prod.fst, x < (tiles ++ [t]).length := by
      intro t x hx
      rw [List.length_append]
      exact Nat.lt_of_lt_of_le (h3 x hx) (by omega)
    by_cases h10 : c = 10
    · rw [if_pos h10] at h
      by_cases hw : width = 0
      · rw [if_pos hw] at h
        exact ih _ _ _ _ h1 h2 h3 h
      · rw [if_neg hw] at h
        by_cases hm : tiles.length % width ≠ 0
        · rw [if_pos hm] at h
          exact absurd h (by simp)
        · rw [if_neg hm] at h
          exact ih _ _ _ _ h1 h2 h3 h
    · rw [if_neg h10] at h
      by_cases h35 : c = 35
      · rw [if_pos h35] at h
        exact ih _ _ _ _ (happ _ (by simp)) h2 (hbound _) h
      · rw [if_neg h35] at h
        by_cases h46 : c = 46
        · rw [if_pos h46] at h
          exact ih _ _ _ _ (happ _ (by simp)) h2 (hbound _) h
        · rw [if_neg h46] at h
          by_cases hEG : c = 69 ∨ c = 71
          · rw [if_pos hEG] at h
            refine ih _ _ _ _ ?_ (alInsert_pairwise h2) ?_ h
            · intro p
              rcases Nat.lt_trichotomy p tiles.length with hp | hp | hp
              · rw [getD_append_lt hp, alGet_alInsert_ne (by omega)]
                exact h1 p
              · subst hp
                rw [getD_append_self, alGet_alInsert_self]
                simp
              · rw [getD_append_gt hp, alGet_alInsert_ne (by omega)]
                rw [alGet_eq_none_of_not_mem (fun hmem => absurd (h3 _ hmem) (by omega))]
                simp
            · intro x hx
              rw [List.length_append]
              rcases alInsert_keys_mem hx with rfl | hx
              · simp
              · exact Nat.lt_of_lt_of_le (h3 x hx) (by omega)
          · rw [if_neg hEG] at h
            exact absurd h (by simp)

/-- C7: the tile array and the unit registry never diverge: parsing
establishes `tiles[p] = Unit ↔ p ∈ units` (with strictly sorted registry
keys), and every single unit turn inside `next_round` — moves, attacks and
deaths included — preserves it. -/
theorem c7_sync_invariant :
    (∀ input b, fromBytes input = Except.ok b → b.sync ∧ b.wfUnits) ∧
    (∀ (b : Board) (pos idv : Nat) (b' : Board), b.sync → b.wfUnits →
      b.processTurn pos idv = some b' → b'.sync ∧ b'.wfUnits) := by
  constructor
  · intro input b h
    refine fromBytesLoop_sync input [] [] 0 b ?_ (by simp) (by simp) h
    intro p
    simp [alGet, getD_big (show List.length ([] : List Tile) ≤ p by simp)]
  · intro b pos idv b' hs hw h
    exact processTurn_sync hs hw h

set_option maxRecDepth 1000000 in
/-- Witness for C7 on the parsed reference grid. -/
theorem c7_sync_invariant_witness : refBoard.sync ∧ refBoard.wfUnits :=
  c7_sync_invariant.1 refBytes refBoard rfl


end D15

namespace D15

/-! ### Path lemmas -/

theorem StepsN_refl (b : Board) (p : Nat) : StepsN b p p 0 := ⟨[], trivial, rfl, rfl⟩

theorem StepsN_zero {b : Board} {p q : Nat} (h : StepsN b p q 0) : p = q := by
  obtain ⟨l, -, hlen, hlast⟩ := h
  rw [List.length_eq_zero] at hlen
  subst hlen
  exact hlast

theorem StepsN_succ_iff {b : Board} {p q : Nat} {n : Nat} :
    StepsN b p q (n + 1) ↔ ∃ r, adjOpen b p r ∧ StepsN b r q n := by
  constructor
  · rintro ⟨l, hok, hlen, hlast⟩
    cases l with
    | nil => simp at hlen
    | cons r l' =>
      rw [pathOk] at hok
      refine ⟨r, hok.1, l', hok.2, by simpa using hlen, ?_⟩
      rw [List.getLastD_cons] at hlast
      exact hlast
  · rintro ⟨r, hadj, l', hok, hlen, hlast⟩
    exact ⟨r :: l', ⟨hadj, hok⟩, by simpa using hlen, by rwa [List.getLastD_cons]⟩

theorem pathOk_append {b : Board} {l₁ l₂ : List Nat} :
    ∀ {p : Nat}, pathOk b p (l₁ ++ l₂) ↔ pathOk b p l₁ ∧ pathOk b (l₁.getLastD p) l₂ := by
  induction l₁ with
  | nil =>
    intro p
    simp [pathOk, List.getLastD]
  | cons r l ih =>
    intro p
    rw [List.cons_append, pathOk, pathOk, ih, List.getLastD_cons]
    tauto

theorem StepsN_trans {b : Board} {p q r : Nat} {m n : Nat}
    (h1 : StepsN b p q m) (h2 : StepsN b q r n) : StepsN b p r (m + n) := by
  obtain ⟨l₁, hok1, hlen1, hlast1⟩ := h1
  obtain ⟨l₂, hok2, hlen2, hlast2⟩ := h2
  refine ⟨l₁ ++ l₂, ?_, by simp [hlen1, hlen2], ?_⟩
  · rw [pathOk_append, hlast1]
    exact ⟨hok1, hok2⟩
  · cases l₂ with
    | nil =>
      rw [List.append_nil, hlast1]
      rw [List.getLastD] at hlast2
      exact hlast2
    | cons x t =>
      rw [List.getLastD_eq_getLast?, List.getLast?_append_of_ne_nil _ (by simp)]
      rw [List.getLastD_eq_getLast?] at hlast2
      cases hl : (x :: t).getLast? with
      | none => simp at hl
      | some y =>
        rw [hl] at hlast2
        exact hlast2

theorem StepsN_snoc {b : Board} {p q r : Nat} {n : Nat}
    (h : StepsN b p q n) (hadj : adjOpen b q r) : StepsN b p r (n + 1) :=
  StepsN_trans h (StepsN_succ_iff.mpr ⟨r, hadj, StepsN_refl b r⟩)

theorem exists_sdIs {b : Board} {p q : Nat} (h : Reach b p q) : ∃ m, sdIs b p q m := by
  classical
  obtain ⟨n, hn⟩ := h
  have hex : ∃ k, StepsN b p q k := ⟨n, hn⟩
  exact ⟨Nat.find hex, Nat.find_spec hex, fun k hk => Nat.find_min' hex hk⟩

/-! ### Grid geometry under the wall border -/

theorem interior_of_not_wall {b : Board} (hB : b.bordered) {p : Nat}
    (h : b.tileAt p ≠ Tile.Wall) :
    b.width ≤ p ∧ p + b.width < b.tiles.length ∧
    p % b.width ≠ 0 ∧ (p + 1) % b.width ≠ 0 := by
  obtain ⟨hw, -, hwall⟩ := hB
  have hp : p < b.tiles.length := lt_length_of_tileAt_ne_wall h
  have hni : ¬ (p < b.width ∨ b.tiles.length ≤ p + b.width ∨
      p % b.width = 0 ∨ (p + 1) % b.width = 0) := by
    intro hcond
    exact h (hwall p hp hcond)
  push_neg at hni
  exact ⟨by omega, by omega, hni.2.2.1, hni.2.2.2⟩

theorem neighbors_symm {b : Board} {p q : Nat} (hw : 1 ≤ b.width) (hp : b.width ≤ p)
    (h : q ∈ b.neighborsList p) : p ∈ b.neighborsList q := by
  rw [Board.neighborsList] at h ⊢
  simp only [List.mem_cons, List.mem_singleton, List.not_mem_nil, or_false] at h ⊢
  rcases h with rfl | rfl | rfl | rfl
  · right; right; right
    omega
  · right; right; left
    omega
  · right; left
    omega
  · left
    omega

theorem sdIs_unique {b : Board} {p q m n : Nat} (h1 : sdIs b p q m) (h2 : sdIs b p q n) :
    m = n :=
  Nat.le_antisymm (h1.2 n h2.1) (h2.2 m h1.1)

theorem natGetD_set_self {l : List Nat} {p d : Nat} (h : p < l.length) :
    (l.set p d).getD p MAXD = d := by
  rw [List.getD_eq_getElem?_getD, List.getElem?_set_eq_of_lt d h]
  rfl

theorem natGetD_set_ne {l : List Nat} {p q d : Nat} (h : p ≠ q) :
    (l.set p d).getD q MAXD = l.getD q MAXD := by
  rw [List.getD_eq_getElem?_getD, List.getElem?_set_ne h, ← List.getD_eq_getElem?_getD]

theorem unfinCount_set {dist : List Nat} :
    ∀ {pos : Nat} {d : Nat}, pos < dist.length → dist.getD pos MAXD = MAXD → d ≠ MAXD →
      unfinCount (dist.set pos d) + 1 = unfinCount dist := by
  induction dist with
  | nil => intro pos d h; simp at h
  | cons x t ih =>
    intro pos d hlt hold hne
    cases pos with
    | zero =>
      have hx : x = MAXD := hold
      rw [List.set_cons_zero]
      rw [unfinCount, unfinCount, List.filter_cons, List.filter_cons]
      rw [if_neg (by simpa using hne), if_pos (by simpa using hx)]
      simp
    | succ m =>
      rw [List.set_cons_succ]
      rw [unfinCount, unfinCount, List.filter_cons, List.filter_cons]
      have hold' : t.getD m MAXD = MAXD := hold
      have hlt' : m < t.length := by simpa using hlt
      by_cases hx : (x == MAXD) = true
      · rw [if_pos hx, if_pos hx]
        have := ih hlt' hold' hne
        rw [unfinCount, unfinCount] at this
        simp only [List.length_cons]
        omega
      · rw [if_neg hx, if_neg hx]
        have := ih hlt' hold' hne
        rw [unfinCount, unfinCount] at this
        omega

theorem openNeighbors_length_le (b : Board) (p : Nat) : (b.openNeighbors p).length ≤ 4 := by
  have h := List.length_filter_le (fun q => b.tileAt q == Tile.Open) (b.neighborsList p)
  rw [Board.openNeighbors]
  rw [Board.neighborsList] at h ⊢
  simpa using h

theorem mem_openNeighbors_iff {b : Board} {p r : Nat} :
    r ∈ b.openNeighbors p ↔ r ∈ b.neighborsList p ∧ b.tileAt r = Tile.Open := by
  rw [Board.openNeighbors, List.mem_filter]
  simp

theorem bfs_exit_empty {b : Board} {src : Nat} {dst : List Nat}
    {dist : List Nat} {maxd : Nat} (hinv : BfsInv b src dst [] dist maxd) :
    BfsPost b src dst dist maxd := by
  refine ⟨hinv.fin_tile, hinv.fin_sd, ?_, ?_, hinv.maxd_set, hinv.maxd_le⟩
  · intro q m hm _
    by_cases hq : dist.getD q MAXD = MAXD
    · obtain ⟨e, he, -⟩ := hinv.front q ⟨m, hm.1⟩ hq
      exact absurd he (List.not_mem_nil e)
    · exact (sdIs_unique (hinv.fin_sd q hq) hm).symm ▸ rfl
  · intro hMD dm hdm hreach
    obtain ⟨e, he, -⟩ := hinv.front dm hreach (hinv.maxd_unset hMD dm hdm)
    exact absurd he (List.not_mem_nil e)

theorem bfs_exit_break {b : Board} {src : Nat} {dst : List Nat}
    {d pos : Nat} {rest : List (Nat × Nat)} {dist : List Nat} {maxd : Nat}
    (hinv : BfsInv b src dst ((d, pos) :: rest) dist maxd)
    (hbr : maxd < d) (hdlt : d < MAXD) :
    BfsPost b src dst dist maxd := by
  refine ⟨hinv.fin_tile, hinv.fin_sd, ?_, ?_, hinv.maxd_set, hinv.maxd_le⟩
  · intro q m hm hle
    by_cases hq : dist.getD q MAXD = MAXD
    · obtain ⟨e, he, -, hesd, k, hk, hqsd⟩ := hinv.front q ⟨m, hm.1⟩ hq
      have h1 : d ≤ e.1 := by
        rcases List.mem_cons.mp he with rfl | he'
        · exact Nat.le_refl _
        · exact List.rel_of_pairwise_cons hinv.q_mono he'
      have h2 : e.1 + k = m := sdIs_unique hqsd hm
      omega
    · exact (sdIs_unique (hinv.fin_sd q hq) hm).symm ▸ rfl
  · intro hMD
    omega

theorem pairwise_const_fst_le {d : Nat} {l : List Nat} :
    List.Pairwise (fun e f : Nat × Nat => e.1 ≤ f.1) (l.map (fun r => (d, r))) := by
  induction l with
  | nil => simp
  | cons a t ih =>
    rw [List.map_cons, List.pairwise_cons]
    refine ⟨?_, ih⟩
    intro f hf
    obtain ⟨r, -, rfl⟩ := List.mem_map.mp hf
    exact Nat.le_refl d

theorem bfsLoop_post {b : Board} {src : Nat} {dst : List Nat}
    (hB : b.bordered) (hsrc : b.tileAt src = Tile.Unit)
    (hsmall : b.bfsFuel < MAXD) :
    ∀ (fuel : Nat) (Q : List (Nat × Nat)) (dist : List Nat) (maxd : Nat),
      BfsInv b src dst Q dist maxd →
      5 * unfinCount dist + Q.length ≤ fuel →
      (∀ e ∈ Q, e.1 + fuel ≤ b.bfsFuel) →
      BfsPost b src dst (Board.bfsLoop b dst fuel Q dist maxd).1
        (Board.bfsLoop b dst fuel Q dist maxd).2 := by
  intro fuel
  induction fuel with
  | zero =>
    intro Q dist maxd hinv hmeas hbnd
    have hQ : Q = [] := List.length_eq_zero.mp (by omega)
    subst hQ
    exact bfs_exit_empty hinv
  | succ n ih =>
    intro Q dist maxd hinv hmeas hbnd
    cases Q with
    | nil =>
      simp only [Board.bfsLoop]
      exact bfs_exit_empty hinv
    | cons e rest =>
      obtain ⟨d, pos⟩ := e
      have hdF : d + (n + 1) ≤ b.bfsFuel := hbnd (d, pos) (List.mem_cons_self _ _)
      have hdlt : d < MAXD := by omega
      simp only [Board.bfsLoop]
      by_cases hbr : maxd < d
      · rw [if_pos hbr]
        exact bfs_exit_break hinv hbr hdlt
      · rw [if_neg hbr]
        by_cases hskip : dist.getD pos MAXD ≤ d
        · rw [if_pos hskip]
          have hposfin : dist.getD pos MAXD ≠ MAXD := by
            intro hEq
            rw [hEq] at hskip
            exact absurd hskip (by omega)
          refine ih rest dist maxd ⟨hinv.len_eq, hinv.fin_tile, hinv.fin_sd, ?_, ?_, ?_, ?_, ?_,
            hinv.maxd_unset, hinv.maxd_set, hinv.maxd_le⟩
            (by simp only [List.length_cons] at hmeas; omega) ?_
          · intro p hp f hf
            exact hinv.fin_le_q p hp f (List.mem_cons_of_mem _ hf)
          · intro f hf
            exact hinv.q_steps f (List.mem_cons_of_mem _ hf)
          · exact hinv.q_mono.of_cons
          · intro f hf g hg
            exact hinv.q_tight f (List.mem_cons_of_mem _ hf) g (List.mem_cons_of_mem _ hg)
          · intro q hre hq
            obtain ⟨f, hf, hfMAX, hfsd, k, hk, hqsd⟩ := hinv.front q hre hq
            have hfne : f ≠ (d, pos) := by
              intro heq
              have h2 : dist.getD pos MAXD = MAXD := by
                rw [heq] at hfMAX
                exact hfMAX
              rw [h2] at hskip
              exact absurd hskip (by omega)
            rcases List.mem_cons.mp hf with hfd | hf'
            · exact absurd hfd hfne
            · exact ⟨f, hf', hfMAX, hfsd, k, hk, hqsd⟩
          · intro f hf
            have := hbnd f (List.mem_cons_of_mem _ hf)
            omega
        · rw [if_neg hskip]
          -- finalize pos at distance d
          have hdmax : ¬ maxd < d := hbr
          obtain ⟨hsteps_pos, htile_pos⟩ := hinv.q_steps (d, pos) (List.mem_cons_self _ _)
          have hposMAX : dist.getD pos MAXD = MAXD := by
            by_contra hfin
            have := (hinv.fin_sd pos hfin).2 d hsteps_pos
            omega
          have hmono : ∀ f ∈ rest, d ≤ f.1 := fun f hf =>
            List.rel_of_pairwise_cons hinv.q_mono hf
          have htight : ∀ f ∈ rest, f.1 ≤ d + 1 := fun f hf =>
            hinv.q_tight f (List.mem_cons_of_mem _ hf) (d, pos) (List.mem_cons_self _ _)
          have hsd_pos : sdIs b src pos d := by
            refine ⟨hsteps_pos, ?_⟩
            intro k hk
            obtain ⟨f, hf, -, -, k', hk', hqsd⟩ :=
              hinv.front pos ⟨k, hk⟩ hposMAX
            have hfd : d ≤ f.1 := by
              rcases List.mem_cons.mp hf with rfl | hf'
              · exact Nat.le_refl _
              · exact hmono f hf'
            have := hqsd.2 k hk
            omega
          have hposlt : pos < dist.length := by
            rw [hinv.len_eq]
            rcases htile_pos with rfl | hop
            · exact lt_length_of_tileAt_ne_wall (by rw [hsrc]; simp)
            · exact lt_length_of_tileAt_ne_wall (by rw [hop]; simp)
          have hposint : b.width ≤ pos ∧ pos + b.width < b.tiles.length ∧
              pos % b.width ≠ 0 ∧ (pos + 1) % b.width ≠ 0 := by
            rcases htile_pos with rfl | hop
            · exact interior_of_not_wall hB (by rw [hsrc]; simp)
            · exact interior_of_not_wall hB (by rw [hop]; simp)
          have hne_nb : ∀ r ∈ b.neighborsList pos, r ≠ pos := by
            intro r hr
            rw [Board.neighborsList] at hr
            simp only [List.mem_cons, List.mem_singleton, List.not_mem_nil, or_false] at hr
            have hw1 : 1 ≤ b.width := hB.1
            rcases hr with rfl | rfl | rfl | rfl <;> omega
          -- facts about the new distance array
          have hset_pos : (dist.set pos d).getD pos MAXD = d := natGetD_set_self hposlt
          have hset_ne : ∀ q, q ≠ pos → (dist.set pos d).getD q MAXD = dist.getD q MAXD :=
            fun q hq => natGetD_set_ne (Ne.symm hq) 
          refine ih _ _ _ ⟨?_, ?_, ?_, ?_, ?_, ?_, ?_, ?_, ?_, ?_, ?_⟩ ?_ ?_
          -- len_eq
          · rw [List.length_set]
            exact hinv.len_eq
          -- fin_tile
          · intro p hp
            by_cases hppos : p = pos
            · subst hppos
              exact htile_pos
            · rw [hset_ne p hppos] at hp
              exact hinv.fin_tile p hp
          -- fin_sd
          · intro p hp
            by_cases hppos : p = pos
            · subst hppos
              rw [hset_pos]
              exact hsd_pos
            · rw [hset_ne p hppos] at hp ⊢
              exact hinv.fin_sd p hp
          -- fin_le_q
          · intro p hp f hf
            rcases List.mem_append.mp hf with hf' | hf'
            · by_cases hppos : p = pos
              · subst hppos
                rw [hset_pos]
                exact hmono f hf'
              · rw [hset_ne p hppos] at hp ⊢
                exact hinv.fin_le_q p hp f (List.mem_cons_of_mem _ hf')
            · obtain ⟨r, -, rfl⟩ := List.mem_map.mp hf'
              by_cases hppos : p = pos
              · subst hppos
                rw [hset_pos]
                omega
              · rw [hset_ne p hppos] at hp ⊢
                have := hinv.fin_le_q p hp (d, pos) (List.mem_cons_self _ _)
                simp only []
                omega
          -- q_steps
          · intro f hf
            rcases List.mem_append.mp hf with hf' | hf'
            · exact hinv.q_steps f (List.mem_cons_of_mem _ hf')
            · obtain ⟨r, hr, rfl⟩ := List.mem_map.mp hf'
              obtain ⟨hrnb, hrop⟩ := mem_openNeighbors_iff.mp hr
              exact ⟨StepsN_snoc hsteps_pos ⟨hrnb, hrop⟩, Or.inr hrop⟩
          -- q_mono
          · rw [List.pairwise_append]
            refine ⟨hinv.q_mono.of_cons, ?_, ?_⟩
            · exact pairwise_const_fst_le
            · intro f hf g hg
              obtain ⟨r, -, rfl⟩ := List.mem_map.mp hg
              simp only []
              exact htight f hf
          -- q_tight
          · intro f hf g hg
            rcases List.mem_append.mp hf with hf' | hf' <;>
              rcases List.mem_append.mp hg with hg' | hg'
            · exact hinv.q_tight f (List.mem_cons_of_mem _ hf') g (List.mem_cons_of_mem _ hg')
            · obtain ⟨r, -, rfl⟩ := List.mem_map.mp hg'
              have := htight f hf'
              simp only []
              omega
            · obtain ⟨r, -, rfl⟩ := List.mem_map.mp hf'
              have := hmono g hg'
              simp only []
              omega
            · obtain ⟨r, -, rfl⟩ := List.mem_map.mp hf'
              obtain ⟨r', -, rfl⟩ := List.mem_map.mp hg'
              simp only []
              omega
          -- front
          · intro q hre hq
            have hqpos : q ≠ pos := by
              intro hEq
              rw [hEq, hset_pos] at hq
              omega
            rw [hset_ne q hqpos] at hq
            obtain ⟨f, hf, hfMAX, hfsd, k, hk, hqsd⟩ := hinv.front q hre hq
            by_cases hfpos : f.2 = pos
            · -- re-route the witness through a pushed neighbour of pos
              have hfd : f.1 = d := by
                have : sdIs b src pos f.1 := hfpos ▸ hfsd
                exact sdIs_unique this hsd_pos
              cases k with
              | zero =>
                exact absurd ((StepsN_zero hk).symm ▸ hfpos) hqpos
              | succ k' =>
                obtain ⟨r, hadj, hk'⟩ := StepsN_succ_iff.mp (hfpos ▸ hk)
                have hrne : r ≠ pos := hne_nb r hadj.1
                have hrMAX : dist.getD r MAXD = MAXD := by
                  by_contra hrfin
                  have h1 := hinv.fin_le_q r hrfin (d, pos) (List.mem_cons_self _ _)
                  have h2 := (hinv.fin_sd r hrfin).1
                  -- a path src → r of length dist[r] ≤ d, then r → q in k' steps
                  have h3 : StepsN b src q (dist.getD r MAXD + k') := StepsN_trans h2 hk'
                  have h4 := hqsd.2 _ h3
                  omega
                have hrsd : sdIs b src r (d + 1) := by
                  refine ⟨StepsN_snoc hsteps_pos hadj, ?_⟩
                  intro j hj
                  have h3 : StepsN b src q (j + k') := StepsN_trans hj hk'
                  have h4 := hqsd.2 _ h3
                  have h5 : f.1 + (k' + 1) = f.1 + k' + 1 := by omega
                  omega
                refine ⟨(d + 1, r), ?_, ?_, hrsd, k', hk', ?_⟩
                · refine List.mem_append.mpr (Or.inr ?_)
                  refine List.mem_map.mpr ⟨r, ?_, rfl⟩
                  exact mem_openNeighbors_iff.mpr ⟨hadj.1, hadj.2⟩
                · rw [hset_ne r hrne]
                  exact hrMAX
                · have : d + 1 + k' = f.1 + (k' + 1) := by omega
                  rw [this]
                  exact hqsd
            · have hf' : f ∈ rest := by
                rcases List.mem_cons.mp hf with rfl | hf'
                · exact absurd rfl hfpos
                · exact hf'
              refine ⟨f, List.mem_append.mpr (Or.inl hf'), ?_, hfsd, k, hk, hqsd⟩
              rw [hset_ne _ hfpos]
              exact hfMAX
          -- maxd_unset
          · intro hMD dm hdm
            by_cases hc : dst.contains pos
            · rw [if_pos hc] at hMD
              omega
            · rw [if_neg hc] at hMD
              have hdmpos : dm ≠ pos := by
                intro hEq
                have hnot : pos ∉ dst := by simpa using hc
                exact hnot (hEq ▸ hdm)
              rw [hset_ne dm hdmpos]
              exact hinv.maxd_unset hMD dm hdm
          -- maxd_set
          · intro hMD'
            by_cases hc : dst.contains pos
            · rw [if_pos hc] at hMD' ⊢
              have hposdst : pos ∈ dst := by simpa using hc
              refine ⟨⟨pos, hposdst, hset_pos, hsd_pos⟩, ?_⟩
              intro d' hd' k hk
              by_cases hmd : maxd = MAXD
              · have hMAX := hinv.maxd_unset hmd d' hd'
                obtain ⟨f, hf, -, -, k', -, hqsd⟩ := hinv.front d' ⟨k, hk⟩ hMAX
                have hfd : d ≤ f.1 := by
                  rcases List.mem_cons.mp hf with rfl | hf'
                  · exact Nat.le_refl _
                  · exact hmono f hf'
                have := hqsd.2 k hk
                omega
              · have hdmaxd : d = maxd := by
                  have h1 := (hinv.maxd_set hmd).2 pos hposdst d hsteps_pos
                  omega
                subst hdmaxd
                exact (hinv.maxd_set hmd).2 d' hd' k hk
            · rw [if_neg hc] at hMD' ⊢
              obtain ⟨⟨dm, hdm, hdmval, hdmsd⟩, hmin⟩ := hinv.maxd_set hMD'
              have hdmpos : dm ≠ pos := by
                intro hEq
                rw [hEq, hposMAX] at hdmval
                exact hMD' hdmval.symm
              exact ⟨⟨dm, hdm, by rw [hset_ne dm hdmpos]; exact hdmval, hdmsd⟩, hmin⟩
          -- maxd_le
          · intro hMD'
            by_cases hc : dst.contains pos
            · rw [if_pos hc]
              rw [Board.bfsFuel]
              rw [Board.bfsFuel] at hdF
              omega
            · rw [if_neg hc]
              rw [if_neg hc] at hMD'
              exact hinv.maxd_le hMD'
          -- measure
          · have hU := unfinCount_set hposlt hposMAX (show d ≠ MAXD by omega)
            have hlen : (rest ++ (b.openNeighbors pos).map (fun r => (d + 1, r))).length ≤
                rest.length + 4 := by
              rw [List.length_append, List.length_map]
              have := openNeighbors_length_le b pos
              omega
            simp only [List.length_cons] at hmeas
            omega
          -- fuel bound
          · intro f hf
            rcases List.mem_append.mp hf with hf' | hf'
            · have := hbnd f (List.mem_cons_of_mem _ hf')
              omega
            · obtain ⟨r, -, rfl⟩ := List.mem_map.mp hf'
              simp only []
              omega

theorem getD_replicate {n p : Nat} : (List.replicate n MAXD).getD p MAXD = MAXD := by
  rw [List.getD_eq_getElem?_getD]
  rcases Nat.lt_or_ge p n with h | h
  · rw [List.getElem?_eq_getElem (by simpa using h)]
    simp
  · rw [List.getElem?_eq_none (by simpa using h)]
    rfl

theorem unfinCount_replicate {n : Nat} : unfinCount (List.replicate n MAXD) = n := by
  rw [unfinCount]
  have : (List.replicate n MAXD).filter (fun x => x == MAXD) = List.replicate n MAXD := by
    apply List.filter_eq_self.mpr
    intro a ha
    rw [List.eq_of_mem_replicate ha]
    simp
  rw [this, List.length_replicate]

theorem bfsDist_post {b : Board} (src : Nat) (dst : List Nat)
    (hB : b.bordered) (hsrc : b.tileAt src = Tile.Unit) (hsmall : b.bfsFuel < MAXD) :
    BfsPost b src dst (b.bfsDist src dst).1 (b.bfsDist src dst).2 := by
  rw [Board.bfsDist]
  apply bfsLoop_post hB hsrc hsmall
  · refine ⟨by simp, ?_, ?_, ?_, ?_, ?_, ?_, ?_, ?_, ?_, ?_⟩
    · intro p hp
      exact absurd getD_replicate hp
    · intro p hp
      exact absurd getD_replicate hp
    · intro p hp
      exact absurd getD_replicate hp
    · intro e he
      rw [List.mem_singleton] at he
      subst he
      exact ⟨StepsN_refl b src, Or.inl rfl⟩
    · simp
    · intro e he f hf
      rw [List.mem_singleton] at he hf
      subst he
      subst hf
      omega
    · intro q hre hq
      obtain ⟨m, hm⟩ := exists_sdIs hre
      refine ⟨(0, src), List.mem_singleton.mpr rfl, getD_replicate, ?_, m, hm.1, ?_⟩
      · exact ⟨StepsN_refl b src, fun k _ => Nat.zero_le k⟩
      · rw [Nat.zero_add]
        exact hm
    · intro _ dm _
      exact getD_replicate
    · intro h
      exact absurd rfl h
    · intro h
      exact absurd rfl h
  · rw [unfinCount_replicate, List.length_singleton, Board.bfsFuel]
  · intro e he
    rw [List.mem_singleton] at he
    subst he
    rw [Nat.zero_add]

/-- Characterisation of the candidate list when some destination is
reachable. -/
theorem bfsCandidates_iff {b : Board} {src : Nat} {dst : List Nat}
    (hB : b.bordered) (hsrc : b.tileAt src = Tile.Unit) (hsmall : b.bfsFuel < MAXD)
    (hmd : (b.bfsDist src dst).2 ≠ MAXD) {d' : Nat} :
    d' ∈ b.bfsCandidates src dst ↔ d' ∈ dst ∧ sdIs b src d' (b.bfsDist src dst).2 := by
  have hpost := bfsDist_post src dst hB hsrc hsmall
  rw [Board.bfsCandidates, List.mem_filter]
  constructor
  · rintro ⟨hmem, hval⟩
    rw [beq_iff_eq] at hval
    have hfin : (b.bfsDist src dst).1.getD d' MAXD ≠ MAXD := by
      rw [hval]
      exact hmd
    have := hpost.fin_sd d' hfin
    rw [hval] at this
    exact ⟨hmem, this⟩
  · rintro ⟨hmem, hsd⟩
    refine ⟨hmem, ?_⟩
    rw [beq_iff_eq]
    exact hpost.complete d' _ hsd (Nat.le_refl _)

/-- When no destination is reachable every destination passes the filter. -/
theorem bfsCandidates_unreachable {b : Board} {src : Nat} {dst : List Nat}
    (hB : b.bordered) (hsrc : b.tileAt src = Tile.Unit) (hsmall : b.bfsFuel < MAXD)
    (hmd : (b.bfsDist src dst).2 = MAXD) :
    b.bfsCandidates src dst = dst := by
  have hpost := bfsDist_post src dst hB hsrc hsmall
  rw [Board.bfsCandidates]
  apply List.filter_eq_self.mpr
  intro dm hdm
  rw [beq_iff_eq, hmd]
  by_contra hne
  have hsd := hpost.fin_sd dm hne
  exact hpost.maxd_unset hmd dm hdm ⟨_, hsd.1⟩

theorem pairwise_le_insSorted {x : Nat} : ∀ {l : List Nat},
    List.Pairwise (· ≤ ·) l → List.Pairwise (· ≤ ·) (insSorted x l) := by
  intro l
  induction l with
  | nil => intro _; simp [insSorted]
  | cons y t ih =>
    intro h
    rw [List.pairwise_cons] at h
    rw [insSorted]
    by_cases hxy : x ≤ y
    · rw [if_pos hxy, List.pairwise_cons]
      refine ⟨?_, List.pairwise_cons.mpr h⟩
      intro a ha
      rcases List.mem_cons.mp ha with rfl | ha'
      · exact hxy
      · exact Nat.le_trans hxy (h.1 a ha')
    · rw [if_neg hxy, List.pairwise_cons]
      refine ⟨?_, ih h.2⟩
      intro a ha
      rcases mem_insSorted.mp ha with rfl | ha'
      · omega
      · exact h.1 a ha'

theorem pairwise_le_listSort : ∀ (l : List Nat), List.Pairwise (· ≤ ·) (listSort l) := by
  intro l
  induction l with
  | nil => simp [listSort]
  | cons x t ih =>
    rw [listSort]
    exact pairwise_le_insSorted ih

theorem pairwise_lt_dedupConsec : ∀ {l : List Nat},
    List.Pairwise (· ≤ ·) l → List.Pairwise (· < ·) (dedupConsec l) := by
  intro l
  induction l with
  | nil => intro _; simp [dedupConsec]
  | cons x t ih =>
    intro h
    cases t with
    | nil => simp [dedupConsec]
    | cons y t' =>
      rw [List.pairwise_cons] at h
      rw [dedupConsec]
      by_cases hxy : x = y
      · rw [if_pos hxy]
        exact ih h.2
      · rw [if_neg hxy, List.pairwise_cons]
        refine ⟨?_, ih h.2⟩
        intro a ha
        have hmem : a ∈ y :: t' := mem_dedupConsec.mp ha
        have hxa : x ≤ a := h.1 a hmem
        rcases List.mem_cons.mp hmem with rfl | ha'
        · omega
        · have hya : y ≤ a := List.rel_of_pairwise_cons h.2 ha'
          have hxy' : x ≤ y := h.1 y (List.mem_cons_self _ _)
          omega

theorem walk_step {b : Board} {src : Nat} {dist : List Nat} {m dstar k : Nat}
    (hB : b.bordered)
    (hfin_tile : ∀ p, dist.getD p MAXD ≠ MAXD → p = src ∨ b.tileAt p = Tile.Open)
    (hfin_sd : ∀ p, dist.getD p MAXD ≠ MAXD → sdIs b src p (dist.getD p MAXD))
    (hcomplete : ∀ q j, sdIs b src q j → j ≤ m → dist.getD q MAXD = j)
    (hdstar : sdIs b src dstar m)
    (hsrc0 : dist.getD src MAXD = 0)
    (hmlt : m < MAXD)
    (hk2 : 2 ≤ k) (hkm : k ≤ m) {ps : List Nat}
    (hps : ∀ q, q ∈ ps ↔ dist.getD q MAXD = k ∧ StepsN b q dstar (m - k)) :
    ∀ q, q ∈ dedupConsec (listSort (((ps.map b.openNeighbors).flatten).filter
        (fun p => dist.getD p MAXD == k - 1))) ↔
      dist.getD q MAXD = k - 1 ∧ StepsN b q dstar (m - (k - 1)) := by
  intro q
  rw [mem_dedupConsec, mem_listSort, List.mem_filter]
  constructor
  · rintro ⟨hflat, hval⟩
    rw [beq_iff_eq] at hval
    obtain ⟨L, hL, hqL⟩ := List.mem_flatten.mp hflat
    obtain ⟨r, hr, rfl⟩ := List.mem_map.mp hL
    obtain ⟨hrk, hrsteps⟩ := (hps r).mp hr
    obtain ⟨hqnb, hqop⟩ := mem_openNeighbors_iff.mp hqL
    refine ⟨hval, ?_⟩
    have hrne : dist.getD r MAXD ≠ MAXD := by rw [hrk]; omega
    have hrtile : b.tileAt r = Tile.Open := by
      rcases hfin_tile r hrne with rfl | hop
      · rw [hsrc0] at hrk
        omega
      · exact hop
    have hrint := interior_of_not_wall hB (by rw [hrtile]; simp)
    have hrnbq : r ∈ b.neighborsList q := neighbors_symm hB.1 hrint.1 hqnb
    have hsteps : StepsN b q dstar (m - k + 1) :=
      StepsN_succ_iff.mpr ⟨r, ⟨hrnbq, hrtile⟩, hrsteps⟩
    have harith : m - k + 1 = m - (k - 1) := by omega
    rwa [harith] at hsteps
  · rintro ⟨hval, hsteps⟩
    rw [beq_iff_eq]
    have harith : m - (k - 1) = (m - k) + 1 := by omega
    rw [harith] at hsteps
    obtain ⟨r, hadj, hrsteps⟩ := StepsN_succ_iff.mp hsteps
    have hqne : dist.getD q MAXD ≠ MAXD := by rw [hval]; omega
    have hsdq : sdIs b src q (k - 1) := by
      have h0 := hfin_sd q hqne
      rwa [hval] at h0
    have hstep_src_r : StepsN b src r k := by
      have h1 := StepsN_snoc hsdq.1 hadj
      have harith2 : k - 1 + 1 = k := by omega
      rwa [harith2] at h1
    have hsdr : sdIs b src r k := by
      obtain ⟨j, hj⟩ := exists_sdIs ⟨k, hstep_src_r⟩
      have hjk : j ≤ k := hj.2 k hstep_src_r
      have hkj : k ≤ j := by
        have h2 : StepsN b src dstar (j + (m - k)) := StepsN_trans hj.1 hrsteps
        have h3 := hdstar.2 _ h2
        omega
      have hjeq : j = k := by omega
      rwa [hjeq] at hj
    have hrk : dist.getD r MAXD = k := hcomplete r k hsdr hkm
    have hrmem : r ∈ ps := (hps r).mpr ⟨hrk, hrsteps⟩
    have hqtile : b.tileAt q = Tile.Open := by
      rcases hfin_tile q hqne with rfl | hop
      · rw [hsrc0] at hval
        omega
      · exact hop
    have hqint := interior_of_not_wall hB (by rw [hqtile]; simp)
    have hqnbr : q ∈ b.neighborsList r := neighbors_symm hB.1 hqint.1 hadj.1
    refine ⟨List.mem_flatten.mpr ⟨b.openNeighbors r, List.mem_map_of_mem _ hrmem, ?_⟩, ?_⟩
    · exact mem_openNeighbors_iff.mpr ⟨hqnbr, hqtile⟩
    · exact hval

theorem backWalk_spec {b : Board} {src : Nat} {dist : List Nat} {m dstar : Nat}
    (hB : b.bordered)
    (hfin_tile : ∀ p, dist.getD p MAXD ≠ MAXD → p = src ∨ b.tileAt p = Tile.Open)
    (hfin_sd : ∀ p, dist.getD p MAXD ≠ MAXD → sdIs b src p (dist.getD p MAXD))
    (hcomplete : ∀ q j, sdIs b src q j → j ≤ m → dist.getD q MAXD = j)
    (hdstar : sdIs b src dstar m)
    (hsrc0 : dist.getD src MAXD = 0)
    (hmlt : m < MAXD) :
    ∀ n ps, n + 1 ≤ m →
      (∀ q, q ∈ ps ↔ dist.getD q MAXD = n + 1 ∧ StepsN b q dstar (m - (n + 1))) →
      List.Pairwise (· < ·) ps →
      (∀ q, q ∈ Board.backWalk b dist (n + 1) ps ↔
          dist.getD q MAXD = 1 ∧ StepsN b q dstar (m - 1)) ∧
      List.Pairwise (· < ·) (Board.backWalk b dist (n + 1) ps) := by
  intro n
  induction n with
  | zero =>
    intro ps _ hinv hpw
    exact ⟨hinv, hpw⟩
  | succ d ih =>
    intro ps hle hinv hpw
    have hunf : Board.backWalk b dist (d + 1 + 1) ps =
        Board.backWalk b dist (d + 1)
          (dedupConsec (listSort (((ps.map b.openNeighbors).flatten).filter
            (fun p => dist.getD p MAXD == d + 1)))) := rfl
    rw [hunf]
    apply ih
    · omega
    · exact walk_step hB hfin_tile hfin_sd hcomplete hdstar hsrc0 hmlt
        (k := d + 2) (by omega) hle hinv
    · exact pairwise_lt_dedupConsec (pairwise_le_listSort _)

theorem min?_spec {l : List Nat} {a : Nat} (h : l.min? = some a) :
    a ∈ l ∧ ∀ c ∈ l, a ≤ c := by
  refine ⟨List.min?_mem (fun x y => min_choice x y) h, ?_⟩
  intro c hc
  exact (List.le_min?_iff (fun x y z => le_min_iff) h).mp (Nat.le_refl a) c hc

theorem head_least {l : List Nat} {p : Nat} (hpw : List.Pairwise (· < ·) l)
    (h : l.head? = some p) : p ∈ l ∧ ∀ q ∈ l, p ≤ q := by
  cases l with
  | nil => exact absurd h (by simp)
  | cons x t =>
    have hx : x = p := by simpa using h
    subst hx
    rw [List.pairwise_cons] at hpw
    refine ⟨List.mem_cons_self _ _, ?_⟩
    intro q hq
    rcases List.mem_cons.mp hq with rfl | hq'
    · exact Nat.le_refl _
    · exact Nat.le_of_lt (hpw.1 q hq')

theorem sd_one_of_first_step {b : Board} {src r : Nat}
    (hsrc : b.tileAt src = Tile.Unit) (hadj : adjOpen b src r) : sdIs b src r 1 := by
  have hs1 : StepsN b src r 1 := StepsN_succ_iff.mpr ⟨r, hadj, StepsN_refl b r⟩
  obtain ⟨j, hj⟩ := exists_sdIs ⟨1, hs1⟩
  have hj1 : j ≤ 1 := hj.2 1 hs1
  have hj0 : j ≠ 0 := by
    intro h0
    rw [h0] at hj
    have := StepsN_zero hj.1
    rw [this, hadj.2] at hsrc
    exact Tile.noConfusion hsrc
  have : j = 1 := by omega
  rwa [this] at hj

theorem bfs_some_spec {b : Board} {src : Nat} {dst : List Nat}
    (hB : b.bordered) (hsrc : b.tileAt src = Tile.Unit) (hsmall : b.bfsFuel < MAXD)
    (hdst : ∀ d ∈ dst, b.tileAt d = Tile.Open) :
    ∀ {p : Nat}, b.bfsStep src dst = some p →
      ∃ dstar m, dstar ∈ dst ∧ sdIs b src dstar m ∧
        (∀ e ∈ dst, ∀ k, StepsN b src e k → m ≤ k) ∧
        (∀ e ∈ dst, sdIs b src e m → dstar ≤ e) ∧
        adjOpen b src p ∧ sdIs b src p 1 ∧ StepsN b p dstar (m - 1) ∧
        (∀ q, sdIs b src q 1 → StepsN b q dstar (m - 1) → p ≤ q) := by
  intro p h
  have hpost := bfsDist_post src dst hB hsrc hsmall
  rw [Board.bfsStep] at h
  split at h
  · exact absurd h (by simp)
  · rename_i position hmin
    split at h
    · exact absurd h (by simp)
    · rename_i hMDb
      have hmd : (b.bfsDist src dst).2 ≠ MAXD := by
        intro hc
        exact hMDb (by rw [hc]; rfl)
      obtain ⟨hposmem, hsdpos⟩ := (bfsCandidates_iff hB hsrc hsmall hmd).mp (min?_spec hmin).1
      refine ⟨position, (b.bfsDist src dst).2, hposmem, hsdpos, (hpost.maxd_set hmd).2, ?_, ?_⟩
      · intro e he hsde
        exact (min?_spec hmin).2 e ((bfsCandidates_iff hB hsrc hsmall hmd).mpr ⟨he, hsde⟩)
      · have hmd1 : 1 ≤ (b.bfsDist src dst).2 := by
          rcases Nat.eq_zero_or_pos (b.bfsDist src dst).2 with h0 | h1
          · exfalso
            rw [h0] at hsdpos
            have heq := StepsN_zero hsdpos.1
            have hop := hdst position hposmem
            rw [← heq, hsrc] at hop
            exact Tile.noConfusion hop
          · exact h1
        have hMlt : (b.bfsDist src dst).2 < MAXD :=
          Nat.lt_of_le_of_lt (hpost.maxd_le hmd) hsmall
        have hsrc0 : (b.bfsDist src dst).1.getD src MAXD = 0 :=
          hpost.complete src 0 ⟨StepsN_refl b src, fun k _ => Nat.zero_le k⟩ (Nat.zero_le _)
        have hinv : ∀ q, q ∈ [position] ↔
            (b.bfsDist src dst).1.getD q MAXD = ((b.bfsDist src dst).2 - 1) + 1 ∧
            StepsN b q position ((b.bfsDist src dst).2 - (((b.bfsDist src dst).2 - 1) + 1)) := by
          intro q
          have harith : ((b.bfsDist src dst).2 - 1) + 1 = (b.bfsDist src dst).2 := by omega
          have harith2 : (b.bfsDist src dst).2 - (((b.bfsDist src dst).2 - 1) + 1) = 0 := by omega
          rw [harith2, harith]
          constructor
          · intro hq
            rw [List.mem_singleton] at hq
            subst hq
            exact ⟨hpost.complete q _ hsdpos (Nat.le_refl _), StepsN_refl b q⟩
          · rintro ⟨-, hq0⟩
            rw [List.mem_singleton]
            exact StepsN_zero hq0
        have hspec := backWalk_spec hB hpost.fin_tile hpost.fin_sd hpost.complete hsdpos
          hsrc0 hMlt ((b.bfsDist src dst).2 - 1) [position] (by omega) hinv (by simp)
        have harith : ((b.bfsDist src dst).2 - 1) + 1 = (b.bfsDist src dst).2 := by omega
        rw [harith] at hspec
        obtain ⟨hpmem, hleast⟩ := head_least hspec.2 h
        obtain ⟨hp1, hpsteps⟩ := (hspec.1 p).mp hpmem
        have hsdp : sdIs b src p 1 := by
          have h1M : (1 : Nat) ≠ MAXD := by decide
          have := hpost.fin_sd p (by rw [hp1]; exact h1M)
          rwa [hp1] at this
        have hadjp : adjOpen b src p := by
          obtain ⟨r, hr, hr0⟩ := StepsN_succ_iff.mp hsdp.1
          rwa [StepsN_zero hr0] at hr
        refine ⟨hadjp, hsdp, hpsteps, ?_⟩
        intro q hq1 hqsteps
        have hq1' : (b.bfsDist src dst).1.getD q MAXD = 1 := hpost.complete q 1 hq1 hmd1
        exact hleast q ((hspec.1 q).mpr ⟨hq1', hqsteps⟩)

theorem bfs_step_isSome {b : Board} {src : Nat} {dst : List Nat}
    (hB : b.bordered) (hsrc : b.tileAt src = Tile.Unit) (hsmall : b.bfsFuel < MAXD)
    (hdst : ∀ d ∈ dst, b.tileAt d = Tile.Open)
    (hmd : (b.bfsDist src dst).2 ≠ MAXD) : ∃ p, b.bfsStep src dst = some p := by
  have hpost := bfsDist_post src dst hB hsrc hsmall
  obtain ⟨⟨dm, hdmdst, hdmval, hdmsd⟩, -⟩ := hpost.maxd_set hmd
  have hdmc : dm ∈ b.bfsCandidates src dst :=
    (bfsCandidates_iff hB hsrc hsmall hmd).mpr ⟨hdmdst, hdmsd⟩
  obtain ⟨position, hmin⟩ : ∃ a, (b.bfsCandidates src dst).min? = some a := by
    cases hc : b.bfsCandidates src dst with
    | nil =>
      rw [hc] at hdmc
      exact absurd hdmc (List.not_mem_nil dm)
    | cons y t => exact ⟨_, rfl⟩
  obtain ⟨hposmem, hsdpos⟩ := (bfsCandidates_iff hB hsrc hsmall hmd).mp (min?_spec hmin).1
  have hmd1 : 1 ≤ (b.bfsDist src dst).2 := by
    rcases Nat.eq_zero_or_pos (b.bfsDist src dst).2 with h0 | h1
    · exfalso
      rw [h0] at hsdpos
      have heq := StepsN_zero hsdpos.1
      have hop := hdst position hposmem
      rw [← heq, hsrc] at hop
      exact Tile.noConfusion hop
    · exact h1
  have hMlt : (b.bfsDist src dst).2 < MAXD :=
    Nat.lt_of_le_of_lt (hpost.maxd_le hmd) hsmall
  have hsrc0 : (b.bfsDist src dst).1.getD src MAXD = 0 :=
    hpost.complete src 0 ⟨StepsN_refl b src, fun k _ => Nat.zero_le k⟩ (Nat.zero_le _)
  have hinv : ∀ q, q ∈ [position] ↔
      (b.bfsDist src dst).1.getD q MAXD = ((b.bfsDist src dst).2 - 1) + 1 ∧
      StepsN b q position ((b.bfsDist src dst).2 - (((b.bfsDist src dst).2 - 1) + 1)) := by
    intro q
    have harith : ((b.bfsDist src dst).2 - 1) + 1 = (b.bfsDist src dst).2 := by omega
    have harith2 : (b.bfsDist src dst).2 - (((b.bfsDist src dst).2 - 1) + 1) = 0 := by omega
    rw [harith2, harith]
    constructor
    · intro hq
      rw [List.mem_singleton] at hq
      subst hq
      exact ⟨hpost.complete q _ hsdpos (Nat.le_refl _), StepsN_refl b q⟩
    · rintro ⟨-, hq0⟩
      rw [List.mem_singleton]
      exact StepsN_zero hq0
  have hspec := backWalk_spec hB hpost.fin_tile hpost.fin_sd hpost.complete hsdpos
    hsrc0 hMlt ((b.bfsDist src dst).2 - 1) [position] (by omega) hinv (by simp)
  have harith : ((b.bfsDist src dst).2 - 1) + 1 = (b.bfsDist src dst).2 := by omega
  rw [harith] at hspec
  obtain ⟨r, hadjr, hrsteps⟩ : ∃ r, adjOpen b src r ∧
      StepsN b r position ((b.bfsDist src dst).2 - 1) := by
    have hs := hsdpos.1
    have harith3 : (b.bfsDist src dst).2 = ((b.bfsDist src dst).2 - 1) + 1 := by omega
    rw [harith3] at hs
    exact StepsN_succ_iff.mp hs
  have hsdr : sdIs b src r 1 := sd_one_of_first_step hsrc hadjr
  have hrval : (b.bfsDist src dst).1.getD r MAXD = 1 := hpost.complete r 1 hsdr hmd1
  have hrmem : r ∈ Board.backWalk b (b.bfsDist src dst).1 (b.bfsDist src dst).2 [position] :=
    (hspec.1 r).mpr ⟨hrval, hrsteps⟩
  obtain ⟨x, t, hres⟩ : ∃ x t,
      Board.backWalk b (b.bfsDist src dst).1 (b.bfsDist src dst).2 [position] = x :: t := by
    cases hc : Board.backWalk b (b.bfsDist src dst).1 (b.bfsDist src dst).2 [position] with
    | nil =>
      rw [hc] at hrmem
      exact absurd hrmem (List.not_mem_nil r)
    | cons x t => exact ⟨x, t, rfl⟩
  refine ⟨x, ?_⟩
  rw [Board.bfsStep, hmin]
  have hif : ((b.bfsDist src dst).2 == MAXD) = false := by
    rw [beq_eq_false_iff_ne]
    exact hmd
  rw [hif]
  simp only [Bool.false_eq_true, if_false]
  rw [hres]
  rfl

theorem bfs_none_iff {b : Board} {src : Nat} {dst : List Nat}
    (hB : b.bordered) (hsrc : b.tileAt src = Tile.Unit) (hsmall : b.bfsFuel < MAXD)
    (hdst : ∀ d ∈ dst, b.tileAt d = Tile.Open) (hne : dst ≠ []) :
    (b.bfsStep src dst = none ↔ ∀ d ∈ dst, ¬ Reach b src d) := by
  have hpost := bfsDist_post src dst hB hsrc hsmall
  by_cases hmd : (b.bfsDist src dst).2 = MAXD
  · constructor
    · intro _
      exact hpost.maxd_unset hmd
    · intro _
      have hc : b.bfsCandidates src dst = dst := bfsCandidates_unreachable hB hsrc hsmall hmd
      rw [Board.bfsStep, hc]
      cases dst with
      | nil => exact absurd rfl hne
      | cons y t =>
        have hify : ((b.bfsDist src (y :: t)).2 == MAXD) = true := by
          rw [beq_iff_eq]
          exact hmd
        rw [List.min?_cons, hify]
        rfl
  · constructor
    · intro hnone
      obtain ⟨p, hp⟩ := bfs_step_isSome hB hsrc hsmall hdst hmd
      rw [hnone] at hp
      exact absurd hp (by simp)
    · intro hunr
      exfalso
      obtain ⟨⟨dm, hdmdst, -, hdmsd⟩, -⟩ := hpost.maxd_set hmd
      exact hunr dm hdmdst ⟨_, hdmsd.1⟩

/-- C3: on a wall-bordered board whose destination tiles are all Open,
`bfs_step(src, dst)` returns `None` exactly when no destination in `dst` is
reachable from `src` through 4-connected Open tiles; and when it returns
`Some p`, `p` is adjacent to `src` and is the reading-order-least tile at
distance 1 lying on some shortest path from `src` to the reading-order-least
destination among those at minimum BFS distance. -/
theorem c3_bfs_step {b : Board} {src : Nat} {dst : List Nat}
    (hB : b.bordered) (hsrc : b.tileAt src = Tile.Unit) (hsmall : b.bfsFuel < MAXD)
    (hdst : ∀ d ∈ dst, b.tileAt d = Tile.Open) (hne : dst ≠ []) :
    (b.bfsStep src dst = none ↔ ∀ d ∈ dst, ¬ Reach b src d) ∧
    (∀ p, b.bfsStep src dst = some p →
      ∃ dstar m, dstar ∈ dst ∧ sdIs b src dstar m ∧
        (∀ e ∈ dst, ∀ k, StepsN b src e k → m ≤ k) ∧
        (∀ e ∈ dst, sdIs b src e m → dstar ≤ e) ∧
        adjOpen b src p ∧ sdIs b src p 1 ∧ StepsN b p dstar (m - 1) ∧
        (∀ q, sdIs b src q 1 → StepsN b q dstar (m - 1) → p ≤ q)) :=
  ⟨bfs_none_iff hB hsrc hsmall hdst hne, fun _ h => bfs_some_spec hB hsrc hsmall hdst h⟩

theorem c3_bfs_step_witness :
    (c1Board.bfsStep 17 [16, 12] = none ↔ ∀ d ∈ [16, 12], ¬ Reach c1Board 17 d) ∧
    (∀ p, c1Board.bfsStep 17 [16, 12] = some p →
      ∃ dstar m, dstar ∈ [16, 12] ∧ sdIs c1Board 17 dstar m ∧
        (∀ e ∈ [16, 12], ∀ k, StepsN c1Board 17 e k → m ≤ k) ∧
        (∀ e ∈ [16, 12], sdIs c1Board 17 e m → dstar ≤ e) ∧
        adjOpen c1Board 17 p ∧ sdIs c1Board 17 p 1 ∧ StepsN c1Board p dstar (m - 1) ∧
        (∀ q, sdIs c1Board 17 q 1 → StepsN c1Board q dstar (m - 1) → p ≤ q)) :=
  c3_bfs_step (by unfold Board.bordered; decide) (by decide) (by decide) (by decide) (by decide)

/-- C10: on a wall-bordered board whose destination tiles are all Open and
non-empty, `bfs_step` is panic-free: the filtered-destination minimum exists
(`min().unwrap()` succeeds) because the candidate list is never empty; every
position whose distance gets finalized is strictly interior, so the neighbor
index computations `pos-width`, `pos-1`, `pos+1`, `pos+width` stay inside the
tile array; and whenever a destination was reached (`max_distance` set) the
backward walk ends in a non-empty list, so `positions[0]` is safe. -/
theorem c10_bfs_safety {b : Board} {src : Nat} {dst : List Nat}
    (hB : b.bordered) (hsrc : b.tileAt src = Tile.Unit) (hsmall : b.bfsFuel < MAXD)
    (hdst : ∀ d ∈ dst, b.tileAt d = Tile.Open) (hne : dst ≠ []) :
    b.bfsCandidates src dst ≠ [] ∧
    (∀ p, (b.bfsDist src dst).1.getD p MAXD ≠ MAXD →
      b.width ≤ p ∧ p + b.width < b.tiles.length ∧
      p % b.width ≠ 0 ∧ (p + 1) % b.width ≠ 0) ∧
    ((b.bfsDist src dst).2 ≠ MAXD → ∃ p, b.bfsStep src dst = some p) := by
  have hpost := bfsDist_post src dst hB hsrc hsmall
  refine ⟨?_, ?_, bfs_step_isSome hB hsrc hsmall hdst⟩
  · by_cases hmd : (b.bfsDist src dst).2 = MAXD
    · rw [bfsCandidates_unreachable hB hsrc hsmall hmd]
      exact hne
    · obtain ⟨⟨dm, hdmdst, -, hdmsd⟩, -⟩ := hpost.maxd_set hmd
      intro hc
      have hmem := (bfsCandidates_iff hB hsrc hsmall hmd).mpr ⟨hdmdst, hdmsd⟩
      rw [hc] at hmem
      exact List.not_mem_nil dm hmem
  · intro p hp
    have hnw : b.tileAt p ≠ Tile.Wall := by
      rcases hpost.fin_tile p hp with rfl | hop
      · rw [hsrc]
        exact fun h => Tile.noConfusion h
      · rw [hop]
        exact fun h => Tile.noConfusion h
    exact interior_of_not_wall hB hnw

theorem c10_bfs_safety_witness :
    duelBoard.bfsCandidates 6 [8] ≠ [] ∧
    (∀ p, (duelBoard.bfsDist 6 [8]).1.getD p MAXD ≠ MAXD →
      duelBoard.width ≤ p ∧ p + duelBoard.width < duelBoard.tiles.length ∧
      p % duelBoard.width ≠ 0 ∧ (p + 1) % duelBoard.width ≠ 0) ∧
    ((duelBoard.bfsDist 6 [8]).2 ≠ MAXD → ∃ p, duelBoard.bfsStep 6 [8] = some p) :=
  c10_bfs_safety (by unfold Board.bordered; decide) (by decide) (by decide) (by decide) (by decide)

end D15
